import Mathlib

/-!
Verification development for the field-based arena allocator of this
repository (the variant of arena.c built on mmap-backed Field chains,
together with the Field/Arena records of arena_struct.h).

Modelling conventions.
Addresses and sizes are natural numbers; the target machine word
(ulen_ty, i.e. uintptr_t) is 64 bits wide, so wrap-around of unsigned
arithmetic is made explicit with mod 2 ^ 64 where the C code can wrap.
Byte memory is a total map from addresses to byte values.  On the
64-bit target sizeof(Free_block.size) = 8, sizeof(Free_block) = 16,
alignof(Free_block) = 8 and sizeof(Field) = 24; values of the size
field are stored little-endian, one byte per address.  The singly
linked free lists threaded through the Free_block records are carried
alongside the byte memory as lists of node addresses (the reified
next-pointer chains); updates of next pointers that land in field
memory are performed on the byte memory as well.  The page source
(mmap) is modelled by an oracle list of optional page addresses, and
the chain of Field records is a Lean list whose head is arena->head.
-/

namespace Arena

/-- sizeof(Free_block.size), the size in bytes of a ulen_ty on the 64-bit target. -/
def szSize : Nat := 8

/-- sizeof(Free_block): the size field followed by the next pointer. -/
def szFreeBlock : Nat := 16

/-- alignof(Free_block) on the 64-bit target. -/
def alignofFb : Nat := 8

/-- sizeof(Field): size, next pointer and top pointer; the flexible array
member base adds no size, so base sits at offset 24 from the mmap result. -/
def szField : Nat := 24

/-- FREE_BLOCKS_SIZES from arena_struct.h: 2 shifted left by 4 .. 19. -/
def FREE_BLOCKS_SIZES : List Nat :=
  [2 <<< 4, 2 <<< 5, 2 <<< 6, 2 <<< 7, 2 <<< 8, 2 <<< 9, 2 <<< 10, 2 <<< 11,
   2 <<< 12, 2 <<< 13, 2 <<< 14, 2 <<< 15, 2 <<< 16, 2 <<< 17, 2 <<< 18, 2 <<< 19]

/-- number of free-list buckets: ARRAY_LEN(FREE_BLOCKS_SIZES) + 1. -/
def NUM_BUCKETS : Nat := 17

/-- alignment_isvalid from arena.c: positive and a power of two
(IS_POWER2 is the bit test n and (n - 1) == 0). -/
def alignment_isvalid (a : Nat) : Bool :=
  decide (0 < a) && (a &&& (a - 1) == 0)

/-- align_up from arena.c: if the low bits are clear return n, otherwise
set the low bits and add one.  Meaningful when alignment is a power of two. -/
def align_up (n alignment : Nat) : Nat :=
  if n &&& (alignment - 1) == 0 then n else (n ||| (alignment - 1)) + 1

/-- align_down from arena.c: clear the low bits of n.  The C code computes
n and with the 64-bit complement of (alignment - 1); for a power of two
alignment that complement is 2 ^ 64 - alignment. -/
def align_down (n alignment : Nat) : Nat :=
  if n &&& (alignment - 1) == 0 then n else n &&& (2 ^ 64 - alignment)

/-- size_class_index from arena.c: the index of the first size class that
is at least the given size, or 16 when every class is smaller. -/
def size_class_index (size : Nat) : Nat :=
  FREE_BLOCKS_SIZES.findIdx (fun b => decide (size ≤ b))

/-- the while loop of arena_push_field: starting from size (the arena
minimum_field_size), double until half of it covers capacity.  The C
loop has no fuel; the fuel argument only bounds the number of doublings
so that the recursion is structural, and 2 * capacity doublings always
suffice when the start is positive (arena_isvalid guarantees
minimum_field_size > 0; with a zero start the C loop would not
terminate). -/
def grow_fuel : Nat → Nat → Nat → Nat
  | 0, size, _ => size
  | fuel + 1, size, capacity =>
    if size / 2 < capacity then grow_fuel fuel (size * 2) capacity else size

/-- the loop of arena_push_field with always-sufficient fuel. -/
def grow (size capacity : Nat) : Nat := grow_fuel (2 * capacity) size capacity

/- ## Byte memory -/

/-- byte memory: a total map from addresses to byte values. -/
abbrev Mem : Type := Nat → Nat

/-- byte i of the little-endian encoding of a 64-bit value. -/
def byte (v i : Nat) : Nat := v / 256 ^ i % 256

/-- write of a ulen_ty value at an address, one byte per cell, little-endian. -/
def store64 (m : Mem) (addr v : Nat) : Mem :=
  fun q => if addr ≤ q ∧ q < addr + 8 then byte v (q - addr) else m q

/-- read of a ulen_ty value at an address, little-endian. -/
def load64 (m : Mem) (addr : Nat) : Nat :=
  m addr + 256 * (m (addr + 1) + 256 * (m (addr + 2) + 256 * (m (addr + 3) +
    256 * (m (addr + 4) + 256 * (m (addr + 5) + 256 * (m (addr + 6) +
    256 * m (addr + 7)))))))

/-- memset(p, 0, n). -/
def memset0 (m : Mem) (lo n : Nat) : Mem :=
  fun q => if lo ≤ q ∧ q < lo + n then 0 else m q

/- ## Header recovery (fb_start_address) -/

/-- the backwards byte scan of fb_start_address: starting just below ptr,
walk down while bytes read zero; returns the address of the first nonzero
byte found (0 when all of memory below is zero, a case the C code never
meets because the size field of the header is nonzero). -/
def fb_scan (m : Mem) : Nat → Nat
  | 0 => 0
  | p + 1 => if m p ≠ 0 then p else fb_scan m p

/-- fb_start_address from arena.c: scan down to the first nonzero byte and
round its address down to alignof(Free_block). -/
def fb_start_address (m : Mem) (ptr : Nat) : Nat :=
  align_down (fb_scan m ptr) alignofFb

/- ## Data model: Field, Arena, allocation results -/

/-- the Field record of arena_struct.h.  The next link is represented by
the position in the field list of the arena; base is the address of the
flexible array member, i.e. the mmap address plus sizeof(Field). -/
structure Field where
  size : Nat
  base : Nat
  top : Nat
deriving Repr, DecidableEq

/-- the Arena record: head field chain (list head = arena->head),
minimum_field_size, the 17 free-list buckets (each bucket is the reified
chain of Free_block addresses threaded through memory), and the byte
memory of all mapped fields. -/
structure ArenaSt where
  fields : List Field
  minimum_field_size : Nat
  blocks : List (List Nat)
  mem : Mem

/-- arena_isvalid from arena.c: non-null with positive minimum_field_size
(nullness of the arena pointer is handled at each call site and carries no
state, so only the malformed case appears on the state). -/
def arena_isvalid (st : ArenaSt) : Bool :=
  decide (0 < st.minimum_field_size)

/-- result of arena_alloc.  payload none models a NULL return; state none
models an arena destroyed by arena_delete (record freed); deleted logs the
fields released by field_delete; hdr is a ghost output recording the address
where this allocation wrote its size field (the reused block on the
free-list path, field->top at bump time on the bump path). -/
structure AllocOut where
  payload : Option Nat
  state : Option ArenaSt
  deleted : List Field
  hdr : Option Nat

/- ## Free-list search and insertion -/

/-- unsigned 64-bit subtraction: the pointer difference in fb_search is
computed in ulen_ty and wraps modulo 2 ^ 64. -/
def wrapSub (x y : Nat) : Nat := (x + 2 ^ 64 - y % 2 ^ 64) % 2 ^ 64

/-- the winner test of fb_search on the block at address b: either the
recorded size covers the worst-case alignment shift, or it is at least the
request and the bytes left after aligning the payload start still cover the
request.  The recorded size is read from memory; the subtraction on the
right of the second test is the wrapped pointer difference of the C code. -/
def winCond (m : Mem) (b size alignment : Nat) : Bool :=
  decide ((size + alignment - 1) % 2 ^ 64 ≤ load64 m b) ||
    (decide (size ≤ load64 m b) &&
      decide (size ≤ wrapSub (b + szSize + load64 m b) (align_up (b + szSize) alignment)))

/-- the inner loop of fb_search on one bucket: walk the chain, remembering
the predecessor slot; on the first winner unlink it through that slot.  An
unlink through the bucket head writes the arena record only; an unlink
through a predecessor block writes that predecessor next field in memory
(the next field sits at offset sizeof(block->size) inside the block). -/
def fb_unlink (m : Mem) (size alignment : Nat) : List Nat → Option (Nat × List Nat × Mem)
  | [] => none
  | b :: rest =>
    if winCond m b size alignment then some (b, rest, m)
    else
      match fb_unlink m size alignment rest with
      | none => none
      | some (w, rest2, m2) =>
        if rest.head? = some w then
          some (w, b :: rest2, store64 m2 (b + szSize) (rest2.headD 0))
        else
          some (w, b :: rest2, m2)

/-- the outer loop of fb_search over the remaining bucket indices: on a
winner in bucket i, replace that bucket with the unlinked remainder;
otherwise move to the next index. -/
def fb_search_go (m : Mem) (size alignment : Nat) (blocks : List (List Nat)) :
    List Nat → Option (Nat × List (List Nat) × Mem)
  | [] => none
  | i :: rest =>
    match fb_unlink m size alignment (blocks.getD i []) with
    | some (w, l2, m2) => some (w, blocks.set i l2, m2)
    | none => fb_search_go m size alignment blocks rest

/-- fb_search from arena.c: scan buckets from size_class_index(size)
through index 16 (ARRAY_LEN(arena->blocks) - 1). -/
def fb_search (st : ArenaSt) (size alignment : Nat) : Option (Nat × ArenaSt) :=
  match fb_search_go st.mem size alignment st.blocks
      (List.range' (size_class_index size) (NUM_BUCKETS - size_class_index size)) with
  | some (w, blocks2, m2) => some (w, { st with blocks := blocks2, mem := m2 })
  | none => none

/-- fb_insert from arena.c: LIFO push of the block onto the bucket of its
recorded size; block->next receives the old bucket head (NULL is address 0),
written into the next field of the block in memory. -/
def fb_insert (st : ArenaSt) (block : Nat) : ArenaSt :=
  let i := size_class_index (load64 st.mem block)
  let slot := st.blocks.getD i []
  { st with
    blocks := st.blocks.set i (block :: slot)
    mem := store64 st.mem (block + szSize) (slot.headD 0) }

/- ## Field management -/

/-- field_new from arena.c: map size + sizeof(Field) fresh zero bytes at the
page-source address addr; the new field has top = base = addr + sizeof(Field). -/
def field_new (m : Mem) (addr size : Nat) : Field × Mem :=
  ({ size := size, base := addr + szField, top := addr + szField },
    memset0 m addr (size + szField))

/-- arena_push_field from arena.c: double minimum_field_size until half of
it covers the request, create the field there and link it as the new head.
The page argument is the oracle answer of the page source (none = mmap
failure). -/
def arena_push_field (st : ArenaSt) (capacity : Nat) (page : Option Nat) :
    Option (Field × ArenaSt) :=
  let sz := grow st.minimum_field_size capacity
  match page with
  | none => none
  | some addr =>
    let fm := field_new st.mem addr sz
    some (fm.1, { st with fields := fm.1 :: st.fields, mem := fm.2 })

/-- arena_delete from arena.c: walk the chain deleting every field, zero
and free the arena record.  The model returns the log of deleted fields;
the destroyed arena has no state. -/
def arena_delete (st : ArenaSt) : List Field := st.fields

/-- the loop of arena_reset: while the head has a successor, delete the
head and advance.  Returns the surviving field (the tail of the chain)
and the deleted fields in deletion order. -/
def reset_loop (f : Field) : List Field → Field × List Field
  | [] => (f, [])
  | g :: gs =>
    let r := reset_loop g gs
    (r.1, f :: r.2)

/-- arena_reset from arena.c: on a non-empty chain the deletion loop runs,
the surviving field gets top = base, and the bucket array is zeroed. -/
def arena_reset (st : ArenaSt) : ArenaSt × List Field :=
  if !arena_isvalid st then (st, [])
  else
    match st.fields with
    | [] => ({ st with blocks := List.replicate NUM_BUCKETS [] }, [])
    | f :: rest =>
      let r := reset_loop f rest
      ({ st with
          fields := [{ r.1 with top := r.1.base }]
          blocks := List.replicate NUM_BUCKETS [] }, r.2)

/- ## Allocation -/

/-- the tail of the bump path of arena_alloc: field is arena->head; compute
the aligned payload and, in ulen_ty arithmetic wrapping mod 2 ^ 64, the new
top; zero the bytes between the old top and the payload, store the recorded
size (the wrapped pointer difference new_top - user_space) at the old top,
and bump the head top. -/
def arena_alloc_finish (st : ArenaSt) (field : Field) (size alignment : Nat) : AllocOut :=
  let user_space := field.top + szSize
  let aligned := align_up user_space alignment
  let new_top := align_up (aligned + size) alignofFb % 2 ^ 64
  let m1 := memset0 st.mem field.top (aligned - field.top)
  let m2 := store64 m1 field.top (wrapSub new_top user_space)
  let fields2 :=
    match st.fields with
    | [] => []
    | _ :: rest => { field with top := new_top } :: rest
  ⟨some aligned, some { st with fields := fields2, mem := m2 }, [], some field.top⟩

/-- the bump path of arena_alloc once a head field exists: if the new top,
computed in ulen_ty arithmetic wrapping mod 2 ^ 64, would cross the field
boundary, push one more field and recompute without a second boundary
check; on push failure destroy the arena. -/
def arena_alloc_bump (st : ArenaSt) (field : Field) (size alignment0 : Nat)
    (oracle : List (Option Nat)) : AllocOut :=
  let alignment := if alignofFb > alignment0 then alignofFb else alignment0
  let user_space := field.top + szSize
  let aligned := align_up user_space alignment
  let new_top := align_up (aligned + size) alignofFb % 2 ^ 64
  if new_top > field.base + field.size then
    match arena_push_field st size (oracle.headD none) with
    | none => ⟨none, none, arena_delete st, none⟩
    | some (f2, st2) => arena_alloc_finish st2 f2 size alignment
  else arena_alloc_finish st field size alignment

/-- arena_alloc from arena.c (field variant): validate, try the free list,
otherwise round the request up to the minimum slot size and bump inside the
head field, pushing fields as needed. -/
def arena_alloc (st : ArenaSt) (size0 alignment0 : Nat) (oracle : List (Option Nat)) :
    AllocOut :=
  if !arena_isvalid st || decide (size0 < 1) || decide (alignment0 > size0) ||
      !alignment_isvalid alignment0 then
    ⟨none, some st, [], none⟩
  else
    match fb_search st size0 alignment0 with
    | some (block, st1) =>
      let user_space := block + szSize
      let aligned := align_up user_space alignment0
      ⟨some aligned,
        some { st1 with mem := memset0 st1.mem user_space (aligned - user_space) },
        [], some block⟩
    | none =>
      let size := if size0 < szFreeBlock - szSize then szFreeBlock - szSize else size0
      match st.fields with
      | [] =>
        match arena_push_field st size (oracle.headD none) with
        | none => ⟨none, none, arena_delete st, none⟩
        | some (f, st2) => arena_alloc_bump st2 f size alignment0 (oracle.drop 1)
      | f :: _ => arena_alloc_bump st f size alignment0 oracle

/-- arena_free from arena.c: recover the header from the byte pattern below
the pointer and LIFO-insert it into its bucket.  NULL arguments are no-ops. -/
def arena_free (st : ArenaSt) (ptr : Nat) : ArenaSt :=
  if !arena_isvalid st || ptr == 0 then st
  else fb_insert st (fb_start_address st.mem ptr)

/-- arena_new from arena.c: calloc a zeroed record with the default
minimum_field_size of 256 MiB; no fields yet. -/
def arena_new : ArenaSt :=
  { fields := []
    minimum_field_size := 256 * 1024 * 1024
    blocks := List.replicate NUM_BUCKETS []
    mem := fun _ => 0 }

/- ## Valid operation sequences -/

/-- page-source answers are page aligned and within the canonical address
range: the model needs that the addresses are multiples of 8 and small
enough that field addresses cannot overflow 64 bits. -/
def oracle_ok (oracle : List (Option Nat)) : Prop :=
  ∀ o ∈ oracle, o.getD 0 % 8 = 0 ∧ o.getD 0 < 2 ^ 40

/-- arena states reachable by sequences of valid operations: construction,
configuring minimum_field_size (kept positive, below 2 ^ 62 and, per the
boundary found in this development, a multiple of 8), allocation of
requests below 2 ^ 32 with a well-aligned bounded page source, free and
reset. -/
inductive Reach : ArenaSt → Prop where
  | new : Reach arena_new
  | set_min (st : ArenaSt) (m : Nat) : Reach st → 0 < m → m % 8 = 0 → m < 2 ^ 62 →
      Reach { st with minimum_field_size := m }
  | alloc (st : ArenaSt) (size alignment : Nat) (oracle : List (Option Nat))
      (st2 : ArenaSt) : Reach st → oracle_ok oracle → size < 2 ^ 32 →
      (arena_alloc st size alignment oracle).state = some st2 → Reach st2
  | free (st : ArenaSt) (ptr : Nat) : Reach st → Reach (arena_free st ptr)
  | reset (st : ArenaSt) : Reach st → Reach (arena_reset st).1

/- ## Derived notions used in statements -/

/-- the blocks visited by fb_search when it starts at bucket i: buckets i
through 16 in index order, each walked in list order. -/
def bucketsFrom (blocks : List (List Nat)) (i : Nat) : List Nat :=
  (List.range' i (NUM_BUCKETS - i)).flatMap (fun j => blocks.getD j [])

/-- the contents of every bucket of the arena. -/
def allBlocks (st : ArenaSt) : List Nat := st.blocks.flatten

/-- invariant I7 of the specification on one field, together with the
8-alignment facts the code maintains for base and top. -/
def field_wf (f : Field) : Prop :=
  f.base % 8 = 0 ∧ f.top % 8 = 0 ∧ f.base ≤ f.top ∧ f.top ≤ f.base + f.size

/-- pairwise separation of free-list blocks: distinct block records never
overlap (a Free_block occupies 16 bytes). -/
def blocks_separated (l : List Nat) : Prop :=
  ∀ b1 ∈ l, ∀ b2 ∈ l, b1 < b2 → b1 + szFreeBlock ≤ b2

/-- a field freshly mapped during the current arena_alloc call: its base
sits sizeof(Field) past a page handed out by the oracle (the first or, for
the second push of one call, the second answer), and its top is untouched. -/
def fresh_from (oracle : List (Option Nat)) (g : Field) : Prop :=
  ∃ addr, g.base = addr + szField ∧ g.top = g.base ∧
    (oracle.headD none = some addr ∨ (oracle.drop 1).headD none = some addr)

/- ## Concrete states used by witnesses and counterexamples -/

/-- the all-zero byte memory. -/
def memZero : Mem := fun _ => 0

/-- an arena holding one fresh field of 4096 bytes mapped at page 4096
(base and top at 4096 + sizeof(Field) = 4120), empty free lists. -/
def stOneField : ArenaSt :=
  { fields := [{ size := 4096, base := 4120, top := 4120 }]
    minimum_field_size := 4096
    blocks := List.replicate NUM_BUCKETS []
    mem := memZero }

/-- an arena with a two-field chain: head at page 8192 (base 8216), its
successor at page 4096 (base 4120). -/
def stTwoFields : ArenaSt :=
  { fields := [{ size := 4096, base := 8216, top := 8300 },
               { size := 4096, base := 4120, top := 4200 }]
    minimum_field_size := 4096
    blocks := List.replicate NUM_BUCKETS []
    mem := memZero }

/-- a fresh arena whose owner set minimum_field_size = 18 (positive, not a
multiple of 8), no fields yet. -/
def stEmpty18 : ArenaSt :=
  { fields := []
    minimum_field_size := 18
    blocks := List.replicate NUM_BUCKETS []
    mem := memZero }

/-- a fresh arena with minimum_field_size = 4096 and no fields. -/
def stEmpty4096 : ArenaSt :=
  { fields := []
    minimum_field_size := 4096
    blocks := List.replicate NUM_BUCKETS []
    mem := memZero }

/-- an arena with one field and one freed block at address 4120 whose
recorded size 32 sits in bucket 0. -/
def stFreeBlock : ArenaSt :=
  { fields := [{ size := 4096, base := 4120, top := 4168 }]
    minimum_field_size := 4096
    blocks := (List.replicate NUM_BUCKETS []).set 0 [4120]
    mem := store64 memZero 4120 32 }

/- ## Theorems -/

/- ## Arithmetic characterisation of the bit-level helpers -/

theorem alignment_isvalid_iff (a : Nat) :
    alignment_isvalid a = true ↔ ∃ i, a = 2 ^ i := by
  unfold alignment_isvalid
  simp only [Bool.and_eq_true, decide_eq_true_eq, beq_iff_eq]
  constructor
  · rintro ⟨hpos, hand⟩
    refine ⟨Nat.log2 a, ?_⟩
    have h1 : 2 ^ Nat.log2 a ≤ a := Nat.log2_self_le (by omega)
    have h2 : a < 2 ^ (Nat.log2 a + 1) := Nat.lt_log2_self
    set i := Nat.log2 a with hi
    by_contra hne
    have hrpos : 0 < a - 2 ^ i := by
      have := Nat.lt_or_ge (2 ^ i) a
      omega
    have hdecomp : a = 2 ^ i * 1 + (a - 2 ^ i) := by omega
    have hrlt : a - 2 ^ i < 2 ^ i := by
      have : 2 ^ (i + 1) = 2 ^ i + 2 ^ i := by ring
      omega
    have hbita : a.testBit i = true := by
      rw [hdecomp, Nat.testBit_mul_pow_two_add 1 hrlt i]
      simp
    have hdecomp1 : a - 1 = 2 ^ i * 1 + (a - 2 ^ i - 1) := by omega
    have hbita1 : (a - 1).testBit i = true := by
      rw [hdecomp1, Nat.testBit_mul_pow_two_add 1 (by omega) i]
      simp
    have : (a &&& (a - 1)).testBit i = true := by
      rw [Nat.testBit_land, hbita, hbita1]
      rfl
    rw [hand] at this
    simp [Nat.zero_testBit] at this
  · rintro ⟨i, rfl⟩
    refine ⟨Nat.pos_pow_of_pos i (by omega), ?_⟩
    calc 2 ^ i &&& (2 ^ i - 1) = 2 ^ i % 2 ^ i := Nat.and_pow_two_sub_one_eq_mod _ _
    _ = 0 := Nat.mod_self _

theorem lor_low_bits (q r i : Nat) (hr : r < 2 ^ i) :
    (2 ^ i * q + r) ||| (2 ^ i - 1) = 2 ^ i * q + (2 ^ i - 1) := by
  apply Nat.eq_of_testBit_eq
  intro j
  rw [Nat.testBit_lor, Nat.testBit_mul_pow_two_add q hr j,
    Nat.testBit_mul_pow_two_add q (Nat.sub_lt (Nat.pos_pow_of_pos i (by omega)) (by omega)) j,
    Nat.testBit_two_pow_sub_one]
  by_cases hj : j < i <;> simp [hj]

/-- align_up on a power-of-two alignment rounds up to the next multiple. -/
theorem align_up_eq (n i : Nat) :
    align_up n (2 ^ i) = if n % 2 ^ i = 0 then n else n - n % 2 ^ i + 2 ^ i := by
  unfold align_up
  rw [Nat.and_pow_two_sub_one_eq_mod]
  by_cases h : n % 2 ^ i = 0
  · simp [h]
  · have hd : n = 2 ^ i * (n / 2 ^ i) + n % 2 ^ i := (Nat.div_add_mod n (2 ^ i)).symm
    have hlt : n % 2 ^ i < 2 ^ i := Nat.mod_lt n (Nat.pos_pow_of_pos i (by omega))
    simp only [beq_iff_eq]
    rw [if_neg h, if_neg h]
    conv_lhs => rw [hd]
    rw [lor_low_bits _ _ _ hlt]
    have hp : 0 < 2 ^ i := Nat.pos_pow_of_pos i (by omega)
    omega

/-- basic bounds for align_up at a power-of-two alignment. -/
theorem align_up_spec (n i : Nat) :
    n ≤ align_up n (2 ^ i) ∧ align_up n (2 ^ i) < n + 2 ^ i ∧
      align_up n (2 ^ i) % 2 ^ i = 0 := by
  have hp : 0 < 2 ^ i := Nat.pos_pow_of_pos i (by omega)
  have hlt : n % 2 ^ i < 2 ^ i := Nat.mod_lt n hp
  have hd : 2 ^ i * (n / 2 ^ i) + n % 2 ^ i = n := Nat.div_add_mod n (2 ^ i)
  rw [align_up_eq]
  by_cases h : n % 2 ^ i = 0
  · rw [if_pos h]
    refine ⟨Nat.le_refl n, by omega, h⟩
  · rw [if_neg h]
    refine ⟨by omega, by omega, ?_⟩
    have hstep : n - n % 2 ^ i + 2 ^ i = 2 ^ i * (n / 2 ^ i) + 2 ^ i := by omega
    rw [hstep, ← Nat.mul_succ]
    exact Nat.mul_mod_right _ _

/-- align_up returns its argument on multiples of the alignment. -/
theorem align_up_of_dvd (n i : Nat) (h : 2 ^ i ∣ n) : align_up n (2 ^ i) = n := by
  obtain ⟨k, rfl⟩ := h
  rw [align_up_eq, if_pos (Nat.mul_mod_right _ _)]

/-- align_up is the least multiple of the alignment at or above n. -/
theorem align_up_least (n i m : Nat) (hnm : n ≤ m) (hdvd : 2 ^ i ∣ m) :
    align_up n (2 ^ i) ≤ m := by
  have hp : 0 < 2 ^ i := Nat.pos_pow_of_pos i (by omega)
  have hd : 2 ^ i * (n / 2 ^ i) + n % 2 ^ i = n := Nat.div_add_mod n (2 ^ i)
  have hlt : n % 2 ^ i < 2 ^ i := Nat.mod_lt n hp
  obtain ⟨k, rfl⟩ := hdvd
  rw [align_up_eq]
  by_cases h : n % 2 ^ i = 0
  · simpa [h] using hnm
  · rw [if_neg h]
    have h1 : n / 2 ^ i < k := by
      by_contra hcon
      push_neg at hcon
      have : 2 ^ i * k ≤ 2 ^ i * (n / 2 ^ i) := Nat.mul_le_mul_left _ hcon
      omega
    have h2 : 2 ^ i * (n / 2 ^ i) + 2 ^ i ≤ 2 ^ i * k := by
      rw [← Nat.mul_succ]
      exact Nat.mul_le_mul_left _ (by omega)
    omega

/-- a coarser power-of-two alignment dominates a finer one pointwise. -/
theorem align_up_mono_align (n i j : Nat) (hij : i ≤ j) :
    align_up n (2 ^ i) ≤ align_up n (2 ^ j) := by
  obtain ⟨h1, _, h3⟩ := align_up_spec n j
  refine align_up_least n i _ h1 ?_
  exact dvd_trans (Nat.pow_dvd_pow 2 hij) (Nat.dvd_of_mod_eq_zero h3)

theorem mod_eq_zero_of_align (n i : Nat) : 2 ^ i ∣ align_up n (2 ^ i) :=
  Nat.dvd_of_mod_eq_zero (align_up_spec n i).2.2

/-- align_down with alignment 8 on a 64-bit word clears the low three bits. -/
theorem align_down_eq_8 (n : Nat) (hn : n < 2 ^ 64) :
    align_down n 8 = n - n % 8 := by
  unfold align_down
  have h8 : (8 : Nat) = 2 ^ 3 := by norm_num
  have hand : n &&& (8 - 1) = n % 8 := by
    rw [h8]
    exact Nat.and_pow_two_sub_one_eq_mod n 3
  by_cases h : n % 8 = 0
  · simp [hand, h]
  · rw [if_neg (by simp [hand, h])]
    have hq : n = 2 ^ 3 * (n / 8) + n % 8 := by omega
    have hqlt : n / 8 < 2 ^ 61 := by omega
    have hmask : (2 : Nat) ^ 64 - 8 = 2 ^ 3 * (2 ^ 61 - 1) + 0 := by norm_num
    apply Nat.eq_of_testBit_eq
    intro j
    rw [Nat.testBit_land]
    rw [hmask, Nat.testBit_mul_pow_two_add _ (by norm_num) j]
    have hsub : n - n % 8 = 2 ^ 3 * (n / 8) + 0 := by omega
    rw [hsub, Nat.testBit_mul_pow_two_add _ (by norm_num) j]
    by_cases hj : j < 3
    · simp [hj, Nat.zero_testBit]
    · simp only [if_neg hj, Nat.testBit_two_pow_sub_one]
      by_cases hj61 : j - 3 < 61
      · simp [hj61]
        conv_lhs => rw [hq]
        rw [Nat.testBit_mul_pow_two_add _ (by omega) j, if_neg hj]
      · have : (n / 8).testBit (j - 3) = false :=
          Nat.testBit_lt_two_pow (by
            calc n / 8 < 2 ^ 61 := hqlt
            _ ≤ 2 ^ (j - 3) := Nat.pow_le_pow_right (by omega) (by omega))
        simp [hj61, this]

/- ## Properties of grow (the field-size doubling loop) -/

theorem grow_fuel_pow (fuel size capacity : Nat) :
    ∃ k, grow_fuel fuel size capacity = size * 2 ^ k := by
  induction fuel generalizing size with
  | zero => exact ⟨0, by simp [grow_fuel]⟩
  | succ fuel ih =>
    unfold grow_fuel
    split
    · obtain ⟨k, hk⟩ := ih (size * 2)
      exact ⟨k + 1, by rw [hk]; ring⟩
    · exact ⟨0, by simp⟩

theorem grow_fuel_ge (fuel size capacity : Nat) (hs : 0 < size)
    (hf : capacity ≤ size * 2 ^ fuel / 2) :
    capacity ≤ grow_fuel fuel size capacity / 2 := by
  induction fuel generalizing size with
  | zero => simpa [grow_fuel] using hf
  | succ fuel ih =>
    unfold grow_fuel
    split
    · refine ih (size * 2) (by omega) ?_
      have hx : size * 2 * 2 ^ fuel = size * 2 ^ (fuel + 1) := by ring
      rw [hx]
      exact hf
    · omega

theorem grow_fuel_min (fuel size capacity j : Nat) (hj : capacity ≤ size * 2 ^ j / 2) :
    grow_fuel fuel size capacity ≤ size * 2 ^ j := by
  induction fuel generalizing size j with
  | zero =>
    have h1 : 1 ≤ 2 ^ j := Nat.one_le_two_pow
    have h2 : size * 1 ≤ size * 2 ^ j := Nat.mul_le_mul_left _ h1
    simpa [grow_fuel] using h2
  | succ fuel ih =>
    unfold grow_fuel
    split
    · rename_i hcond
      rcases j with _ | j
      · simp at hj
        omega
      · have hj2 : capacity ≤ size * 2 * 2 ^ j / 2 := by
          have hx : size * 2 * 2 ^ j = size * 2 ^ (j + 1) := by ring
          rw [hx]
          exact hj
        calc grow_fuel fuel (size * 2) capacity ≤ size * 2 * 2 ^ j := ih (size * 2) j hj2
        _ = size * 2 ^ (j + 1) := by ring
    · have h1 : 1 ≤ 2 ^ j := Nat.one_le_two_pow
      have h2 : size * 1 ≤ size * 2 ^ j := Nat.mul_le_mul_left _ h1
      simpa using h2

/-- 2 * capacity doublings always suffice for a positive start. -/
theorem grow_fuel_enough (size capacity : Nat) (hs : 0 < size) :
    capacity ≤ size * 2 ^ (2 * capacity) / 2 := by
  rcases Nat.eq_zero_or_pos capacity with rfl | hc
  · simp
  · rw [Nat.le_div_iff_mul_le (by omega)]
    have h1 : capacity < 2 ^ capacity := Nat.lt_two_pow capacity
    have h2 : 2 ^ capacity * 2 ≤ 2 ^ (2 * capacity) := by
      calc 2 ^ capacity * 2 = 2 ^ (capacity + 1) := by ring
      _ ≤ 2 ^ (2 * capacity) := Nat.pow_le_pow_right (by omega) (by omega)
    have h3 : 2 ^ (2 * capacity) * 1 ≤ 2 ^ (2 * capacity) * size :=
      Nat.mul_le_mul_left _ hs
    have h4 : 2 ^ (2 * capacity) * size = size * 2 ^ (2 * capacity) := by ring
    omega

theorem grow_ge (size capacity : Nat) (h : 0 < size) :
    capacity ≤ grow size capacity / 2 :=
  grow_fuel_ge _ _ _ h (grow_fuel_enough _ _ h)

theorem grow_pow_form (size capacity : Nat) :
    ∃ k, grow size capacity = size * 2 ^ k :=
  grow_fuel_pow _ _ _

theorem grow_min (size capacity j : Nat) (hj : capacity ≤ size * 2 ^ j / 2) :
    grow size capacity ≤ size * 2 ^ j :=
  grow_fuel_min _ _ _ _ hj

/-- grow yields at least twice the requested capacity. -/
theorem grow_two_mul (size capacity : Nat) (h : 0 < size) :
    2 * capacity ≤ grow size capacity := by
  have := grow_ge size capacity h
  omega

theorem grow_fuel_upper (fuel size cap : Nat) :
    grow_fuel fuel size cap ≤ size ∨ grow_fuel fuel size cap < 4 * cap := by
  induction fuel generalizing size with
  | zero => exact Or.inl (le_refl _)
  | succ n ih =>
    unfold grow_fuel
    by_cases h : size / 2 < cap
    · rw [if_pos h]
      rcases ih (size * 2) with h2 | h2
      · right
        omega
      · exact Or.inr h2
    · rw [if_neg h]
      exact Or.inl (le_refl _)

/-- the doubling loop never overshoots: it stops at the starting size or
strictly below four times the requested capacity. -/
theorem grow_upper (size cap : Nat) :
    grow size cap ≤ size ∨ grow size cap < 4 * cap := grow_fuel_upper _ _ _

/- ## Size classes -/

theorem size_class_index_le (s : Nat) : size_class_index s ≤ 16 := by
  have := @List.findIdx_le_length Nat (fun b => decide (s ≤ b)) FREE_BLOCKS_SIZES
  simpa [FREE_BLOCKS_SIZES] using this

theorem size_class_index_mono {s t : Nat} (h : s ≤ t) :
    size_class_index s ≤ size_class_index t := by
  unfold size_class_index
  exact List.findIdx_le_findIdx (fun x _ ht => by
    simp only [decide_eq_true_eq] at *
    omega)

/- ## Byte memory lemmas -/

theorem store64_inside (m : Mem) (addr v q : Nat) (h1 : addr ≤ q) (h2 : q < addr + 8) :
    store64 m addr v q = byte v (q - addr) := by
  unfold store64
  rw [if_pos ⟨h1, h2⟩]

theorem store64_outside (m : Mem) (addr v q : Nat) (h : q < addr ∨ addr + 8 ≤ q) :
    store64 m addr v q = m q := by
  unfold store64
  rw [if_neg (by omega)]

theorem memset0_inside (m : Mem) (lo n q : Nat) (h1 : lo ≤ q) (h2 : q < lo + n) :
    memset0 m lo n q = 0 := by
  unfold memset0
  rw [if_pos ⟨h1, h2⟩]

theorem memset0_outside (m : Mem) (lo n q : Nat) (h : q < lo ∨ lo + n ≤ q) :
    memset0 m lo n q = m q := by
  unfold memset0
  rw [if_neg (by omega)]

theorem byte_lt (v i : Nat) : byte v i < 256 := Nat.mod_lt _ (by omega)

theorem store64_bytes_lt (m : Mem) (addr v : Nat) (hm : ∀ q, m q < 256) :
    ∀ q, store64 m addr v q < 256 := by
  intro q
  unfold store64
  split
  · exact byte_lt _ _
  · exact hm q

theorem memset0_bytes_lt (m : Mem) (lo n : Nat) (hm : ∀ q, m q < 256) :
    ∀ q, memset0 m lo n q < 256 := by
  intro q
  unfold memset0
  split
  · omega
  · exact hm q

/-- a stored 64-bit value reads back modulo the word size. -/
theorem load64_store64 (m : Mem) (addr v : Nat) (hv : v < 2 ^ 64) :
    load64 (store64 m addr v) addr = v := by
  unfold load64
  rw [store64_inside m addr v addr (by omega) (by omega)]
  rw [store64_inside m addr v (addr + 1) (by omega) (by omega)]
  rw [store64_inside m addr v (addr + 2) (by omega) (by omega)]
  rw [store64_inside m addr v (addr + 3) (by omega) (by omega)]
  rw [store64_inside m addr v (addr + 4) (by omega) (by omega)]
  rw [store64_inside m addr v (addr + 5) (by omega) (by omega)]
  rw [store64_inside m addr v (addr + 6) (by omega) (by omega)]
  rw [store64_inside m addr v (addr + 7) (by omega) (by omega)]
  simp only [Nat.add_sub_cancel_left, Nat.sub_self]
  unfold byte
  norm_num
  omega

/-- equal bytes over the eight read cells give equal loads. -/
theorem load64_congr (m1 m2 : Mem) (addr : Nat)
    (h : ∀ i, i < 8 → m1 (addr + i) = m2 (addr + i)) :
    load64 m1 addr = load64 m2 addr := by
  unfold load64
  have h0 := h 0 (by omega)
  have h1 := h 1 (by omega)
  have h2 := h 2 (by omega)
  have h3 := h 3 (by omega)
  have h4 := h 4 (by omega)
  have h5 := h 5 (by omega)
  have h6 := h 6 (by omega)
  have h7 := h 7 (by omega)
  simp only [Nat.add_zero] at h0
  rw [h0, h1, h2, h3, h4, h5, h6, h7]

/-- a nonzero 64-bit value has a nonzero byte. -/
theorem byte_exists_ne_zero (v : Nat) (hv : 0 < v) (hv64 : v < 2 ^ 64) :
    ∃ i, i < 8 ∧ byte v i ≠ 0 := by
  by_contra hcon
  push_neg at hcon
  have h0 := hcon 0 (by omega)
  have h1 := hcon 1 (by omega)
  have h2 := hcon 2 (by omega)
  have h3 := hcon 3 (by omega)
  have h4 := hcon 4 (by omega)
  have h5 := hcon 5 (by omega)
  have h6 := hcon 6 (by omega)
  have h7 := hcon 7 (by omega)
  unfold byte at h0 h1 h2 h3 h4 h5 h6 h7
  norm_num at h0 h1 h2 h3 h4 h5 h6 h7
  omega

/-- a memory whose bytes are below 256 encodes, at every address, the
little-endian bytes of the value read back by load64. -/
theorem byte_load64 (m : Mem) (addr : Nat) (hm : ∀ q, m q < 256) :
    ∀ i, i < 8 → byte (load64 m addr) i = m (addr + i) := by
  have b0 := hm addr
  have b1 := hm (addr + 1)
  have b2 := hm (addr + 2)
  have b3 := hm (addr + 3)
  have b4 := hm (addr + 4)
  have b5 := hm (addr + 5)
  have b6 := hm (addr + 6)
  have b7 := hm (addr + 7)
  intro i hi
  unfold byte load64
  interval_cases i <;> norm_num <;> omega

theorem load64_lt (m : Mem) (addr : Nat) (hm : ∀ q, m q < 256) :
    load64 m addr < 2 ^ 64 := by
  have b0 := hm addr
  have b1 := hm (addr + 1)
  have b2 := hm (addr + 2)
  have b3 := hm (addr + 3)
  have b4 := hm (addr + 4)
  have b5 := hm (addr + 5)
  have b6 := hm (addr + 6)
  have b7 := hm (addr + 7)
  unfold load64
  norm_num
  omega

/- ## Header recovery lemmas -/

theorem fb_scan_eq (m : Mem) (t p : Nat) (ht : m t ≠ 0) (htp : t < p)
    (hz : ∀ q, t < q → q < p → m q = 0) : fb_scan m p = t := by
  induction p with
  | zero => omega
  | succ p ih =>
    unfold fb_scan
    by_cases he : t = p
    · subst he
      rw [if_pos ht]
    · have hlt : t < p := by omega
      rw [if_neg (by simpa using hz p hlt (by omega))]
      exact ih hlt (fun q hq1 hq2 => hz q hq1 (by omega))

/-- header recovery: if an address h is 8-aligned and holds the little-endian
bytes of a nonzero 64-bit value, and every byte strictly between h + 8 and
ptr is zero, then the scan of fb_start_address lands inside the size field
and rounding down recovers exactly h. -/
theorem fb_start_address_eq (m : Mem) (h p v : Nat) (h8 : 8 ∣ h)
    (hv : 0 < v) (hv64 : v < 2 ^ 64) (hp64 : p < 2 ^ 64)
    (hbytes : ∀ i, i < 8 → m (h + i) = byte v i)
    (hp : h + 8 ≤ p)
    (hz : ∀ q, h + 8 ≤ q → q < p → m q = 0) :
    fb_start_address m p = h := by
  obtain ⟨i0, hi0, hb0⟩ := byte_exists_ne_zero v hv hv64
  have hPex : i0 ≤ 7 := by omega
  set P : Nat → Prop := fun k => byte v k ≠ 0 with hP
  have hinst : DecidablePred P := fun k => instDecidableNot
  set j := Nat.findGreatest P 7 with hj
  have hPj : P j := Nat.findGreatest_spec hPex hb0
  have hjle : j ≤ 7 := Nat.findGreatest_le 7
  have habove : ∀ k, j < k → k ≤ 7 → byte v k = 0 := by
    intro k hk1 hk2
    rw [hj] at hk1
    have := Nat.findGreatest_is_greatest hk1 hk2
    simpa [hP] using this
  have hscan : fb_scan m p = h + j := by
    apply fb_scan_eq m (h + j) p
    · rw [hbytes j (by omega)]
      exact hPj
    · omega
    · intro q hq1 hq2
      by_cases hq8 : q < h + 8
      · have hqk : q = h + (q - h) := by omega
        rw [hqk, hbytes (q - h) (by omega)]
        exact habove (q - h) (by omega) (by omega)
      · exact hz q (by omega) hq2
  unfold fb_start_address alignofFb
  rw [hscan, align_down_eq_8 _ (by omega)]
  obtain ⟨c, rfl⟩ := h8
  have : (8 * c + j) % 8 = j := by omega
  omega

/- ## Claim C8: argument validation of arena_alloc -/

/-- Claim C8: arena_alloc returns null and changes no arena, field or
free-list state whenever the arena is malformed (minimum_field_size = 0;
the same arena_isvalid guard rejects a null arena, which carries no state
to change), or size < 1, or the alignment exceeds size, or the alignment
is not a positive power of two. -/
theorem arena_alloc_invalid_args (st : ArenaSt) (size0 alignment0 : Nat)
    (oracle : List (Option Nat))
    (h : st.minimum_field_size = 0 ∨ size0 < 1 ∨ size0 < alignment0 ∨
      ¬ ∃ i, alignment0 = 2 ^ i) :
    arena_alloc st size0 alignment0 oracle = ⟨none, some st, [], none⟩ := by
  have hcond : (!arena_isvalid st || decide (size0 < 1) || decide (alignment0 > size0) ||
      !alignment_isvalid alignment0) = true := by
    rcases h with h | h | h | h
    · simp [arena_isvalid, h]
    · simp [h]
    · simp [h]
    · have hf : alignment_isvalid alignment0 = false := by
        by_contra hc
        rw [Bool.not_eq_false] at hc
        exact h ((alignment_isvalid_iff alignment0).mp hc)
      simp [hf]
  unfold arena_alloc
  rw [hcond]
  rfl

/-- witness for claim C8 at a concrete input: alignment 16 exceeds size 8. -/
theorem arena_alloc_invalid_args_witness :
    arena_alloc stOneField 8 16 [] = ⟨none, some stOneField, [], none⟩ :=
  arena_alloc_invalid_args stOneField 8 16 []
    (Or.inr (Or.inr (Or.inl (by decide))))

/- ## Claim C7: geometric field sizing -/

/-- Claim C7: whenever a new field is pushed for a request s on an arena
with positive minimum_field_size m, the capacity of the new field is the
least value of the form m * 2 ^ k (k ≥ 0) with s ≤ capacity / 2 (for
natural s the integer comparison agrees with the real one). -/
theorem arena_push_field_capacity (st : ArenaSt) (s : Nat) (page : Option Nat)
    (f : Field) (st2 : ArenaSt) (hm : 0 < st.minimum_field_size)
    (hpush : arena_push_field st s page = some (f, st2)) :
    ∃ k, f.size = st.minimum_field_size * 2 ^ k ∧ s ≤ f.size / 2 ∧
      ∀ j, s ≤ st.minimum_field_size * 2 ^ j / 2 →
        f.size ≤ st.minimum_field_size * 2 ^ j := by
  unfold arena_push_field at hpush
  cases page with
  | none => simp at hpush
  | some addr =>
    simp only [field_new, Option.some.injEq, Prod.mk.injEq] at hpush
    obtain ⟨hf, _⟩ := hpush
    have hsize : f.size = grow st.minimum_field_size s := by
      rw [← hf]
    obtain ⟨k, hk⟩ := grow_pow_form st.minimum_field_size s
    refine ⟨k, by rw [hsize, hk], ?_, ?_⟩
    · rw [hsize]
      exact grow_ge _ _ hm
    · intro j hj
      rw [hsize]
      exact grow_min _ _ _ hj

/-- witness for claim C7: pushing for request 5000 on minimum 4096 yields
16384 = 4096 * 2 ^ 2, the least doubling whose half covers 5000. -/
theorem arena_push_field_capacity_witness :
    ∃ k, (⟨16384, 4120, 4120⟩ : Field).size = stEmpty4096.minimum_field_size * 2 ^ k ∧
      5000 ≤ (⟨16384, 4120, 4120⟩ : Field).size / 2 ∧
      ∀ j, 5000 ≤ stEmpty4096.minimum_field_size * 2 ^ j / 2 →
        (⟨16384, 4120, 4120⟩ : Field).size ≤ stEmpty4096.minimum_field_size * 2 ^ j :=
  arena_push_field_capacity stEmpty4096 5000 (some 4096) ⟨16384, 4120, 4120⟩
    { stEmpty4096 with
        fields := [⟨16384, 4120, 4120⟩]
        mem := memset0 stEmpty4096.mem 4096 (16384 + szField) }
    (by decide) rfl

/- ## Claim C10: the alignment check of fb_search does not wrap -/

/-- Claim C10: for a block examined by fb_search with recorded size
bs = load64 m b at least the request, under the arena_alloc precondition
alignment ≤ size, the aligned payload start never passes the payload end,
so the wrapped 64-bit difference computed by the code equals the true
remaining byte count and the comparison against size is performed on it. -/
theorem fb_search_check_no_wrap (m : Mem) (b size alignment i : Nat)
    (ha : alignment = 2 ^ i) (h1 : alignment ≤ size) (h2 : size ≤ load64 m b)
    (hb : b + szSize + load64 m b < 2 ^ 64) :
    align_up (b + szSize) alignment ≤ b + szSize + load64 m b ∧
      wrapSub (b + szSize + load64 m b) (align_up (b + szSize) alignment) =
        (b + szSize + load64 m b) - align_up (b + szSize) alignment := by
  subst ha
  obtain ⟨hle, hlt, _⟩ := align_up_spec (b + szSize) i
  have h3 : align_up (b + szSize) (2 ^ i) ≤ b + szSize + load64 m b := by omega
  refine ⟨h3, ?_⟩
  unfold wrapSub
  have hy : align_up (b + szSize) (2 ^ i) % 2 ^ 64 = align_up (b + szSize) (2 ^ i) :=
    Nat.mod_eq_of_lt (by omega)
  rw [hy]
  omega

/-- witness for claim C10 at a concrete block: address 4120, recorded size
32, request 20, alignment 16. -/
theorem fb_search_check_no_wrap_witness :
    align_up (4120 + szSize) 16 ≤ 4120 + szSize + load64 (store64 memZero 4120 32) 4120 ∧
      wrapSub (4120 + szSize + load64 (store64 memZero 4120 32) 4120)
          (align_up (4120 + szSize) 16) =
        (4120 + szSize + load64 (store64 memZero 4120 32) 4120) -
          align_up (4120 + szSize) 16 :=
  fb_search_check_no_wrap (store64 memZero 4120 32) 4120 20 16 4 (by decide)
    (by decide) (by decide) (by decide)

/- ## Claim C1: arena_reset retains one field -/

theorem reset_loop_eq (f : Field) (rest : List Field) :
    reset_loop f rest = (rest.getLastD f, (f :: rest).dropLast) := by
  induction rest generalizing f with
  | nil => rfl
  | cons g gs ih =>
    rw [reset_loop, ih g]
    cases gs with
    | nil => simp [List.getLastD]
    | cons g2 gs2 =>
      have hsome : (g2 :: gs2).getLast? = some ((g2 :: gs2).getLast (by simp)) :=
        List.getLast?_eq_getLast _ (by simp)
      simp [List.getLastD_cons, List.dropLast_cons₂, hsome]

/-- Claim C1 counterexample: on a chain of two fields, the field that was
arena->head immediately before arena_reset is no longer the head after it
(the deletion loop deletes the head each iteration and keeps the tail). -/
theorem arena_reset_cex :
    (arena_reset stTwoFields).1.fields.head? ≠ stTwoFields.fields.head? ∧
      (arena_reset stTwoFields).2 = [{ size := 4096, base := 8216, top := 8300 }] := by
  constructor
  · decide
  · decide

/-- Claim C1 as amended: for a valid arena with a non-empty chain,
arena_reset retains the oldest field (the tail of the chain, whose next
link is already null), calls field_delete on every other field walking
from the head, sets the retained field top to its base, zeroes every
bucket, and leaves minimum_field_size and the byte memory unchanged. -/
theorem arena_reset_retains_oldest (st : ArenaSt) (f : Field) (rest : List Field)
    (hv : arena_isvalid st = true) (hf : st.fields = f :: rest) :
    (arena_reset st).1.fields =
        [{ rest.getLastD f with top := (rest.getLastD f).base }] ∧
      (arena_reset st).2 = (f :: rest).dropLast ∧
      (arena_reset st).1.blocks = List.replicate NUM_BUCKETS [] ∧
      (arena_reset st).1.minimum_field_size = st.minimum_field_size ∧
      (arena_reset st).1.mem = st.mem := by
  unfold arena_reset
  rw [hv]
  simp only [Bool.not_true, Bool.false_eq_true, if_false, hf, reset_loop_eq]
  simp

/-- witness for the amended claim C1 on the concrete two-field chain: the
retained field is the tail, with top reset to its base. -/
theorem arena_reset_retains_oldest_witness :
    (arena_reset stTwoFields).1.fields =
        [{ [(⟨4096, 4120, 4200⟩ : Field)].getLastD ⟨4096, 8216, 8300⟩ with
            top := ([(⟨4096, 4120, 4200⟩ : Field)].getLastD ⟨4096, 8216, 8300⟩).base }] ∧
      (arena_reset stTwoFields).2 =
        ((⟨4096, 8216, 8300⟩ : Field) :: [⟨4096, 4120, 4200⟩]).dropLast ∧
      (arena_reset stTwoFields).1.blocks = List.replicate NUM_BUCKETS [] ∧
      (arena_reset stTwoFields).1.minimum_field_size = stTwoFields.minimum_field_size ∧
      (arena_reset stTwoFields).1.mem = stTwoFields.mem :=
  arena_reset_retains_oldest stTwoFields ⟨4096, 8216, 8300⟩ [⟨4096, 4120, 4200⟩]
    (by decide) rfl

/- ## Claim C4: first-fit order of fb_search -/

theorem fb_unlink_isSome (m : Mem) (s a : Nat) (l : List Nat) (b : Nat)
    (hb : b ∈ l) (hw : winCond m b s a = true) :
    (fb_unlink m s a l).isSome = true := by
  induction l with
  | nil => simp at hb
  | cons c rest ih =>
    unfold fb_unlink
    by_cases hc : winCond m c s a
    · simp [hc]
    · rw [if_neg (by simp [hc])]
      rcases List.mem_cons.mp hb with rfl | hb2
      · exact absurd hw (by simp [hc])
      · have hsome := ih hb2
        cases hrec : fb_unlink m s a rest with
        | none => rw [hrec] at hsome; simp at hsome
        | some r =>
          obtain ⟨w0, l0, m0⟩ := r
          simp only [hrec]
          split <;> simp

theorem fb_unlink_eq_none (m : Mem) (s a : Nat) (l : List Nat)
    (hall : ∀ b ∈ l, winCond m b s a = false) :
    fb_unlink m s a l = none := by
  induction l with
  | nil => rfl
  | cons c rest ih =>
    unfold fb_unlink
    rw [if_neg (by simp [hall c (List.mem_cons_self c rest)])]
    rw [ih (fun x hx => hall x (List.mem_cons_of_mem _ hx))]

theorem fb_unlink_none_iff (m : Mem) (s a : Nat) (l : List Nat) :
    fb_unlink m s a l = none ↔ ∀ b ∈ l, winCond m b s a = false := by
  constructor
  · intro h b hb
    by_contra hcon
    have hsome := fb_unlink_isSome m s a l b hb (by simpa using hcon)
    rw [h] at hsome
    simp at hsome
  · exact fb_unlink_eq_none m s a l

theorem fb_unlink_some (m : Mem) (s a : Nat) (l : List Nat) (w : Nat)
    (l2 : List Nat) (m2 : Mem) (h : fb_unlink m s a l = some (w, l2, m2)) :
    winCond m w s a = true ∧
      ∃ pre post, l = pre ++ w :: post ∧ l2 = pre ++ post ∧
        ∀ b ∈ pre, winCond m b s a = false := by
  induction l generalizing w l2 m2 with
  | nil => simp [fb_unlink] at h
  | cons c rest ih =>
    unfold fb_unlink at h
    by_cases hc : winCond m c s a
    · rw [if_pos hc] at h
      simp only [Option.some.injEq, Prod.mk.injEq] at h
      obtain ⟨h1, h2, -⟩ := h
      exact ⟨h1 ▸ hc, [], rest, by simp [h1], by simp [h2], by simp⟩
    · rw [if_neg (by simp [hc])] at h
      cases hrec : fb_unlink m s a rest with
      | none => rw [hrec] at h; simp at h
      | some r =>
        obtain ⟨w0, rest2, m0⟩ := r
        rw [hrec] at h
        dsimp only at h
        obtain ⟨hwin, pre, post, hsp, hl2, hpre⟩ := ih w0 rest2 m0 hrec
        have hw : w0 = w ∧ c :: rest2 = l2 := by
          split at h <;>
            (simp only [Option.some.injEq, Prod.mk.injEq] at h
             exact ⟨h.1, h.2.1⟩)
        obtain ⟨rfl, rfl⟩ := hw
        refine ⟨hwin, c :: pre, post, by simp [hsp], by simp [hl2], ?_⟩
        intro b hb
        rcases List.mem_cons.mp hb with rfl | hb2
        · simpa using hc
        · exact hpre b hb2

theorem fb_unlink_mem_frame (m : Mem) (s a : Nat) (l : List Nat) (w : Nat)
    (l2 : List Nat) (m2 : Mem) (h : fb_unlink m s a l = some (w, l2, m2)) :
    ∀ q, (∀ b ∈ l, q < b + szSize ∨ b + szFreeBlock ≤ q) → m2 q = m q := by
  induction l generalizing w l2 m2 with
  | nil => simp [fb_unlink] at h
  | cons c rest ih =>
    intro q hq
    unfold fb_unlink at h
    by_cases hc : winCond m c s a
    · rw [if_pos hc] at h
      simp only [Option.some.injEq, Prod.mk.injEq] at h
      obtain ⟨-, -, rfl⟩ := h
      rfl
    · rw [if_neg (by simp [hc])] at h
      cases hrec : fb_unlink m s a rest with
      | none => rw [hrec] at h; simp at h
      | some r =>
        obtain ⟨w0, rest2, m0⟩ := r
        rw [hrec] at h
        dsimp only at h
        have hm0 : m0 q = m q :=
          ih w0 rest2 m0 hrec q (fun b hb => hq b (List.mem_cons_of_mem _ hb))
        have hqc := hq c (List.mem_cons_self c rest)
        split at h <;>
          simp only [Option.some.injEq, Prod.mk.injEq] at h
        · obtain ⟨-, -, rfl⟩ := h
          rw [store64_outside _ _ _ _ (by
            unfold szSize szFreeBlock at hqc
            unfold szSize
            omega)]
          exact hm0
        · obtain ⟨-, -, rfl⟩ := h
          exact hm0

theorem getD_set_self_bucket (blocks : List (List Nat)) (i : Nat) (v : List Nat)
    (h : i < blocks.length) : (blocks.set i v).getD i [] = v := by
  rw [List.getD_eq_getElem?_getD, List.getElem?_set_self h]
  rfl

theorem getD_set_ne_bucket (blocks : List (List Nat)) (i j : Nat) (v : List Nat)
    (h : i ≠ j) : (blocks.set i v).getD j [] = blocks.getD j [] := by
  rw [List.getD_eq_getElem?_getD, List.getElem?_set_ne h, ← List.getD_eq_getElem?_getD]

theorem flatMap_getD_set_not_mem (blocks : List (List Nat)) (i : Nat) (v : List Nat)
    (idxs : List Nat) (hni : i ∉ idxs) :
    idxs.flatMap (fun j => (blocks.set i v).getD j []) =
      idxs.flatMap (fun j => blocks.getD j []) := by
  induction idxs with
  | nil => rfl
  | cons j rest ih =>
    simp only [List.flatMap_cons]
    rw [getD_set_ne_bucket _ _ _ _ (List.ne_of_not_mem_cons hni),
      ih (fun hm => hni (List.mem_cons_of_mem _ hm))]

theorem fb_search_go_none_iff (m : Mem) (s a : Nat) (blocks : List (List Nat))
    (idxs : List Nat) :
    fb_search_go m s a blocks idxs = none ↔
      ∀ b ∈ idxs.flatMap (fun j => blocks.getD j []), winCond m b s a = false := by
  induction idxs with
  | nil => simp [fb_search_go]
  | cons i rest ih =>
    unfold fb_search_go
    cases hrec : fb_unlink m s a (blocks.getD i []) with
    | some r =>
      obtain ⟨w, l2, m2⟩ := r
      obtain ⟨hwin, pre, post, hsp, -, -⟩ := fb_unlink_some m s a _ w l2 m2 hrec
      simp only [List.flatMap_cons]
      constructor
      · intro hcon
        exact absurd hcon (by simp)
      · intro hall
        have hwmem : w ∈ blocks.getD i [] := by rw [hsp]; simp
        have hfail := hall w (List.mem_append_left _ hwmem)
        rw [hwin] at hfail
        simp at hfail
    | none =>
      have hfail := (fb_unlink_none_iff m s a (blocks.getD i [])).mp hrec
      simp only [List.flatMap_cons]
      constructor
      · intro h b hb
        rcases List.mem_append.mp hb with hb1 | hb2
        · exact hfail b hb1
        · exact (ih.mp h) b hb2
      · intro hall
        exact ih.mpr (fun b hb => hall b (List.mem_append_right _ hb))

theorem fb_search_go_some (m : Mem) (s a : Nat) (blocks : List (List Nat))
    (idxs : List Nat) (w : Nat) (blocks2 : List (List Nat)) (m2 : Mem)
    (hnd : idxs.Nodup) (hbound : ∀ j ∈ idxs, j < blocks.length)
    (h : fb_search_go m s a blocks idxs = some (w, blocks2, m2)) :
    winCond m w s a = true ∧
      (∃ pre post,
        idxs.flatMap (fun j => blocks.getD j []) = pre ++ w :: post ∧
        (∀ b ∈ pre, winCond m b s a = false) ∧
        idxs.flatMap (fun j => blocks2.getD j []) = pre ++ post) ∧
      (∃ jw l2, jw ∈ idxs ∧ blocks2 = blocks.set jw l2) ∧
      (∀ q, (∀ b ∈ idxs.flatMap (fun j => blocks.getD j []),
          q < b + szSize ∨ b + szFreeBlock ≤ q) → m2 q = m q) := by
  induction idxs generalizing w blocks2 m2 with
  | nil => simp [fb_search_go] at h
  | cons i rest ih =>
    have hinotin : i ∉ rest := (List.nodup_cons.mp hnd).1
    unfold fb_search_go at h
    cases hrec : fb_unlink m s a (blocks.getD i []) with
    | some r =>
      obtain ⟨w0, l2, m0⟩ := r
      rw [hrec] at h
      dsimp only at h
      simp only [Option.some.injEq, Prod.mk.injEq] at h
      obtain ⟨rfl, rfl, rfl⟩ := h
      obtain ⟨hwin, pre0, post0, hsp, hl2, hpre0⟩ := fb_unlink_some m s a _ _ _ _ hrec
      refine ⟨hwin, ⟨pre0, post0 ++ rest.flatMap (fun j => blocks.getD j []), ?_, hpre0, ?_⟩,
        ⟨i, l2, List.mem_cons_self i rest, rfl⟩, ?_⟩
      · simp only [List.flatMap_cons]
        rw [hsp]
        simp
      · simp only [List.flatMap_cons]
        rw [getD_set_self_bucket _ _ _ (hbound i (List.mem_cons_self i rest)),
          flatMap_getD_set_not_mem _ _ _ _ hinotin, hl2]
        simp
      · intro q hq
        exact fb_unlink_mem_frame m s a _ _ _ _ hrec q
          (fun b hb => hq b (by simp only [List.flatMap_cons]; exact List.mem_append_left _ hb))
    | none =>
      rw [hrec] at h
      dsimp only at h
      have hfail := (fb_unlink_none_iff m s a (blocks.getD i [])).mp hrec
      obtain ⟨hwin, ⟨pre1, post1, hf1, hf2, hf3⟩, ⟨jw, l2, hjw, hbl2⟩, hframe⟩ :=
        ih w blocks2 m2 (List.nodup_cons.mp hnd).2
          (fun j hj => hbound j (List.mem_cons_of_mem _ hj)) h
      refine ⟨hwin, ⟨blocks.getD i [] ++ pre1, post1, ?_, ?_, ?_⟩,
        ⟨jw, l2, List.mem_cons_of_mem _ hjw, hbl2⟩, ?_⟩
      · simp only [List.flatMap_cons]
        rw [hf1]
        simp
      · intro b hb
        rcases List.mem_append.mp hb with hb1 | hb2
        · exact hfail b hb1
        · exact hf2 b hb2
      · simp only [List.flatMap_cons]
        have hne : jw ≠ i := fun he => hinotin (he ▸ hjw)
        rw [hbl2, getD_set_ne_bucket _ _ _ _ hne, ← hbl2, hf3]
        simp
      · intro q hq
        exact hframe q
          (fun b hb => hq b (by simp only [List.flatMap_cons]; exact List.mem_append_right _ hb))

/-- Claim C4: fb_search visits buckets in index order from
size_class_index(size) through the last bucket, walks each bucket in list
order, and unlinks and returns the first block whose recorded size passes
the winner test of the code (either bs at least size + align - 1, or bs at
least size and the bytes remaining past the aligned payload start at least
size); it returns null exactly when no visited block passes; the winning
block is removed from its bucket whole, its recorded size unmodified. -/
theorem fb_search_first_fit (st : ArenaSt) (s a : Nat)
    (hlen : st.blocks.length = NUM_BUCKETS) :
    (fb_search st s a = none ↔
      ∀ b ∈ bucketsFrom st.blocks (size_class_index s), winCond st.mem b s a = false) ∧
    (∀ w st2, fb_search st s a = some (w, st2) →
      winCond st.mem w s a = true ∧
      (∃ pre post,
        bucketsFrom st.blocks (size_class_index s) = pre ++ w :: post ∧
        (∀ b ∈ pre, winCond st.mem b s a = false) ∧
        bucketsFrom st2.blocks (size_class_index s) = pre ++ post) ∧
      st2.fields = st.fields ∧ st2.minimum_field_size = st.minimum_field_size ∧
      (blocks_separated (bucketsFrom st.blocks (size_class_index s)) →
        load64 st2.mem w = load64 st.mem w)) := by
  unfold fb_search bucketsFrom
  constructor
  · cases hgo : fb_search_go st.mem s a st.blocks
        (List.range' (size_class_index s) (NUM_BUCKETS - size_class_index s)) with
    | some r =>
      obtain ⟨w, blocks2, m2⟩ := r
      dsimp only
      constructor
      · intro hcon
        exact absurd hcon (by simp)
      · intro hall
        rw [(fb_search_go_none_iff _ _ _ _ _).mpr hall] at hgo
        simp at hgo
    | none =>
      dsimp only
      constructor
      · intro _
        exact (fb_search_go_none_iff _ _ _ _ _).mp hgo
      · intro _
        rfl
  · intro w st2 hsome
    cases hgo : fb_search_go st.mem s a st.blocks
        (List.range' (size_class_index s) (NUM_BUCKETS - size_class_index s)) with
    | none => rw [hgo] at hsome; simp at hsome
    | some r =>
      obtain ⟨w0, blocks2, m2⟩ := r
      rw [hgo] at hsome
      simp only [Option.some.injEq, Prod.mk.injEq] at hsome
      obtain ⟨rfl, rfl⟩ := hsome
      have hnd : (List.range' (size_class_index s) (NUM_BUCKETS - size_class_index s)).Nodup :=
        List.nodup_range' _ _
      have hbound : ∀ j ∈ List.range' (size_class_index s) (NUM_BUCKETS - size_class_index s),
          j < st.blocks.length := by
        intro j hj
        have hj2 := (List.mem_range'_1).mp hj
        have hle := size_class_index_le s
        unfold NUM_BUCKETS at *
        omega
      obtain ⟨hwin, ⟨pre, post, hf1, hf2, hf3⟩, -, hframe⟩ :=
        fb_search_go_some st.mem s a st.blocks _ w0 blocks2 m2 hnd hbound hgo
      refine ⟨hwin, ⟨pre, post, hf1, hf2, hf3⟩, rfl, rfl, ?_⟩
      intro hsep
      have hwmem : w0 ∈ (List.range' (size_class_index s)
          (NUM_BUCKETS - size_class_index s)).flatMap (fun j => st.blocks.getD j []) := by
        rw [hf1]
        simp
      refine load64_congr _ _ _ ?_
      intro i hi
      apply hframe
      intro b hb
      by_cases hbw : b = w0
      · subst hbw
        unfold szSize
        omega
      · rcases Nat.lt_or_ge b w0 with hlt | hge
        · have := hsep b hb w0 hwmem hlt
          unfold szSize szFreeBlock at *
          omega
        · have hlt2 : w0 < b := by omega
          have := hsep w0 hwmem b hb hlt2
          unfold szSize szFreeBlock at *
          omega

/-- witness for claim C4 on a concrete arena with one freed block of
recorded size 32 in bucket 0: the search for (size 20, align 4) finds it
first, removes it, and leaves its recorded size unchanged. -/
theorem fb_search_first_fit_witness :
    (fb_search stFreeBlock 20 4 = none ↔
      ∀ b ∈ bucketsFrom stFreeBlock.blocks (size_class_index 20),
        winCond stFreeBlock.mem b 20 4 = false) ∧
    (∀ w st2, fb_search stFreeBlock 20 4 = some (w, st2) →
      winCond stFreeBlock.mem w 20 4 = true ∧
      (∃ pre post,
        bucketsFrom stFreeBlock.blocks (size_class_index 20) = pre ++ w :: post ∧
        (∀ b ∈ pre, winCond stFreeBlock.mem b 20 4 = false) ∧
        bucketsFrom st2.blocks (size_class_index 20) = pre ++ post) ∧
      st2.fields = stFreeBlock.fields ∧
      st2.minimum_field_size = stFreeBlock.minimum_field_size ∧
      (blocks_separated (bucketsFrom stFreeBlock.blocks (size_class_index 20)) →
        load64 st2.mem w = load64 stFreeBlock.mem w)) :=
  fb_search_first_fit stFreeBlock 20 4 (by decide)

/- ## Shape of the slow (bump) path of arena_alloc -/

theorem guard_false (st : ArenaSt) (size0 alignment0 : Nat)
    (hv : 0 < st.minimum_field_size) (hs : 0 < size0) (has : alignment0 ≤ size0)
    (hpow : ∃ i, alignment0 = 2 ^ i) :
    (!arena_isvalid st || decide (size0 < 1) || decide (alignment0 > size0) ||
      !alignment_isvalid alignment0) = false := by
  have h1 : arena_isvalid st = true := by
    unfold arena_isvalid
    simpa using hv
  have h2 : decide (size0 < 1) = false := by
    simp only [decide_eq_false_iff_not]
    omega
  have h3 : decide (alignment0 > size0) = false := by
    simp only [decide_eq_false_iff_not]
    omega
  have h4 : alignment_isvalid alignment0 = true := (alignment_isvalid_iff _).mpr hpow
  rw [h1, h2, h3, h4]
  rfl

theorem fb_search_all_empty (st : ArenaSt) (s a : Nat)
    (hempty : ∀ l ∈ st.blocks, l = []) : fb_search st s a = none := by
  unfold fb_search
  have hgo : fb_search_go st.mem s a st.blocks
      (List.range' (size_class_index s) (NUM_BUCKETS - size_class_index s)) = none := by
    rw [fb_search_go_none_iff]
    intro b hb
    simp only [List.mem_flatMap] at hb
    obtain ⟨j, -, hbj⟩ := hb
    rw [List.getD_eq_getElem?_getD] at hbj
    cases hj : st.blocks[j]? with
    | none => rw [hj] at hbj; simp at hbj
    | some l =>
      rw [hj] at hbj
      have : l = [] := hempty l (List.getElem?_mem hj)
      subst this
      simp at hbj
  rw [hgo]

theorem arena_alloc_finish_eq (st : ArenaSt) (field : Field) (size alignment : Nat) :
    arena_alloc_finish st field size alignment =
      ⟨some (align_up (field.top + szSize) alignment),
        some { st with
          fields :=
            (match st.fields with
            | [] => []
            | _ :: rest =>
              { field with
                top := (align_up (align_up (field.top + szSize) alignment + size)
                  alignofFb % 2 ^ 64) } :: rest)
          mem := (store64 (memset0 st.mem field.top
              (align_up (field.top + szSize) alignment - field.top)) field.top
            (wrapSub
              (align_up (align_up (field.top + szSize) alignment + size) alignofFb %
                2 ^ 64)
              (field.top + szSize))) },
        [], some field.top⟩ := rfl

theorem arena_alloc_bump_eq (st : ArenaSt) (f : Field) (sz a0 : Nat)
    (oracle2 : List (Option Nat)) :
    arena_alloc_bump st f sz a0 oracle2 =
      if align_up (align_up (f.top + szSize) (if alignofFb > a0 then alignofFb else a0) + sz)
          alignofFb % 2 ^ 64 > f.base + f.size then
        match arena_push_field st sz (oracle2.headD none) with
        | none => ⟨none, none, arena_delete st, none⟩
        | some (f2, st2) =>
          arena_alloc_finish st2 f2 sz (if alignofFb > a0 then alignofFb else a0)
      else arena_alloc_finish st f sz (if alignofFb > a0 then alignofFb else a0) := rfl

theorem arena_alloc_eq (st : ArenaSt) (s a : Nat) (oracle : List (Option Nat)) :
    arena_alloc st s a oracle =
      if (!arena_isvalid st || decide (s < 1) || decide (a > s) || !alignment_isvalid a) then
        ⟨none, some st, [], none⟩
      else
        match fb_search st s a with
        | some (block, st1) =>
          ⟨some (align_up (block + szSize) a),
            some { st1 with mem := (memset0 st1.mem (block + szSize)
              (align_up (block + szSize) a - (block + szSize))) },
            [], some block⟩
        | none =>
          match st.fields with
          | [] =>
            match arena_push_field st
                (if s < szFreeBlock - szSize then szFreeBlock - szSize else s)
                (oracle.headD none) with
            | none => ⟨none, none, arena_delete st, none⟩
            | some (f, st2) =>
              arena_alloc_bump st2 f
                (if s < szFreeBlock - szSize then szFreeBlock - szSize else s) a
                (oracle.drop 1)
          | f :: _ =>
            arena_alloc_bump st f
              (if s < szFreeBlock - szSize then szFreeBlock - szSize else s) a oracle := rfl

theorem arena_push_field_inv (st : ArenaSt) (cap : Nat) (page : Option Nat)
    (f : Field) (st2 : ArenaSt) (h : arena_push_field st cap page = some (f, st2)) :
    ∃ addr, page = some addr ∧
      f = ⟨grow st.minimum_field_size cap, addr + szField, addr + szField⟩ ∧
      st2.fields = f :: st.fields ∧
      st2.minimum_field_size = st.minimum_field_size ∧
      st2.blocks = st.blocks ∧
      st2.mem = memset0 st.mem addr (grow st.minimum_field_size cap + szField) := by
  unfold arena_push_field at h
  cases page with
  | none => simp at h
  | some addr =>
    simp only [field_new, Option.some.injEq, Prod.mk.injEq] at h
    obtain ⟨hf, hst⟩ := h
    subst hf
    subst hst
    exact ⟨addr, rfl, rfl, rfl, rfl, rfl, rfl⟩

/-- the bump path of arena_alloc, when it does not destroy the arena, ends
in arena_alloc_finish: either directly on the given head field with the
boundary check passed, or on a field pushed by the second call site. -/
theorem arena_alloc_bump_shape (st : ArenaSt) (f : Field) (sz a : Nat)
    (oracle2 : List (Option Nat))
    (hsome : (arena_alloc_bump st f sz a oracle2).state.isSome = true) :
    (arena_alloc_bump st f sz a oracle2 =
        arena_alloc_finish st f sz (if alignofFb > a then alignofFb else a) ∧
      align_up (align_up (f.top + szSize) (if alignofFb > a then alignofFb else a) + sz)
          alignofFb % 2 ^ 64 ≤ f.base + f.size) ∨
    (∃ addr stp,
      oracle2.headD none = some addr ∧
      arena_push_field st sz (oracle2.headD none) =
        some (⟨grow st.minimum_field_size sz, addr + szField, addr + szField⟩, stp) ∧
      arena_alloc_bump st f sz a oracle2 =
        arena_alloc_finish stp
          ⟨grow st.minimum_field_size sz, addr + szField, addr + szField⟩
          sz (if alignofFb > a then alignofFb else a)) := by
  rw [arena_alloc_bump_eq] at hsome ⊢
  by_cases hover : align_up (align_up (f.top + szSize)
      (if alignofFb > a then alignofFb else a) + sz) alignofFb % 2 ^ 64 >
    f.base + f.size
  · rw [if_pos hover] at hsome ⊢
    cases hpush : arena_push_field st sz (oracle2.headD none) with
    | none =>
      rw [hpush] at hsome
      simp at hsome
    | some pr =>
      obtain ⟨fnew, stp⟩ := pr
      obtain ⟨addr, hpage, hfnew, -, -, -, -⟩ :=
        arena_push_field_inv st sz _ fnew stp hpush
      subst hfnew
      exact Or.inr ⟨addr, stp, hpage, rfl, rfl⟩
  · rw [if_neg hover] at hsome ⊢
    exact Or.inl ⟨rfl, by omega⟩

/-- the successful slow path of arena_alloc always ends in
arena_alloc_finish on an arena whose head field is the bump target: either
the original head with the boundary check passed, or a freshly pushed field
sized by grow; every other field of that arena was a field of the starting
arena or was itself pushed during this call. -/
theorem arena_alloc_slow_shape (st : ArenaSt) (s a : Nat) (oracle : List (Option Nat))
    (hguard : (!arena_isvalid st || decide (s < 1) || decide (a > s) ||
      !alignment_isvalid a) = false)
    (hsearch : fb_search st s a = none)
    (hsome : (arena_alloc st s a oracle).state.isSome = true) :
    ∃ (stx : ArenaSt) (f : Field) (rest : List Field),
      stx.fields = f :: rest ∧
      stx.minimum_field_size = st.minimum_field_size ∧
      arena_alloc st s a oracle =
        arena_alloc_finish stx f
          (if s < szFreeBlock - szSize then szFreeBlock - szSize else s)
          (if alignofFb > a then alignofFb else a) ∧
      (∀ g ∈ rest, g ∈ st.fields ∨ (fresh_from oracle g ∧
        g.size = grow st.minimum_field_size
          (if s < szFreeBlock - szSize then szFreeBlock - szSize else s))) ∧
      ((stx = st ∧ st.fields.head? = some f ∧
          align_up (align_up (f.top + szSize) (if alignofFb > a then alignofFb else a) +
              (if s < szFreeBlock - szSize then szFreeBlock - szSize else s)) alignofFb %
              2 ^ 64 ≤
            f.base + f.size) ∨
        (fresh_from oracle f ∧
          f.size = grow st.minimum_field_size
            (if s < szFreeBlock - szSize then szFreeBlock - szSize else s))) := by
  set sz := if s < szFreeBlock - szSize then szFreeBlock - szSize else s with hsz
  rw [arena_alloc_eq] at hsome ⊢
  rw [hguard] at hsome ⊢
  rw [if_neg Bool.false_ne_true] at hsome ⊢
  rw [hsearch] at hsome ⊢
  dsimp only at hsome ⊢
  rw [← hsz] at hsome ⊢
  cases hfields : st.fields with
  | nil =>
    rw [hfields] at hsome
    dsimp only at hsome ⊢
    cases hpush : arena_push_field st sz (oracle.headD none) with
    | none =>
      rw [hpush] at hsome
      simp at hsome
    | some pr =>
      obtain ⟨fnew, stp⟩ := pr
      rw [hpush] at hsome
      dsimp only at hsome ⊢
      obtain ⟨addr, hpage, hfnew, hf2, hm2, -, -⟩ :=
        arena_push_field_inv st sz _ fnew stp hpush
      rcases arena_alloc_bump_shape stp fnew sz a (oracle.drop 1) hsome with
        ⟨heq, hfit⟩ | ⟨addr2, stp2, hpage2, hpush2, heq⟩
      · refine ⟨stp, fnew, [], by rw [hf2, hfields], hm2, heq,
          by simp, Or.inr ⟨⟨addr, ?_, ?_, Or.inl hpage⟩, ?_⟩⟩
        · rw [hfnew]
        · rw [hfnew]
        · rw [hfnew]
      · obtain ⟨addr2b, hpageb, hfnew2, hf3, hm3, -, -⟩ :=
          arena_push_field_inv stp sz _ _ stp2 hpush2
        have haddr : addr2b = addr2 := by
          rw [hpage2] at hpageb
          simpa using hpageb.symm
        subst haddr
        refine ⟨stp2, ⟨grow stp.minimum_field_size sz, addr2b + szField, addr2b + szField⟩,
          stp.fields, ?_, by rw [hm3, hm2], ?_, ?_, ?_⟩
        · rw [hf3]
        · exact heq
        · intro g hg
          rw [hf2, hfields] at hg
          rcases List.mem_cons.mp hg with rfl | hg2
          · exact Or.inr ⟨⟨addr, by rw [hfnew], by rw [hfnew], Or.inl hpage⟩, by rw [hfnew]⟩
          · simp at hg2
        · exact Or.inr ⟨⟨addr2b, rfl, rfl, Or.inr hpage2⟩, by rw [hm2]⟩
  | cons f0 rest0 =>
    rw [hfields] at hsome
    dsimp only at hsome ⊢
    rcases arena_alloc_bump_shape st f0 sz a oracle hsome with
      ⟨heq, hfit⟩ | ⟨addr2, stp2, hpage2, hpush2, heq⟩
    · exact ⟨st, f0, rest0, hfields, rfl, heq, fun g hg =>
        Or.inl (List.mem_cons_of_mem _ hg),
        Or.inl ⟨rfl, rfl, hfit⟩⟩
    · obtain ⟨addr2b, hpageb, hfnew2, hf3, hm3, -, -⟩ :=
        arena_push_field_inv st sz _ _ stp2 hpush2
      have haddr : addr2b = addr2 := by
        rw [hpage2] at hpageb
        simpa using hpageb.symm
      subst haddr
      refine ⟨stp2, ⟨grow st.minimum_field_size sz, addr2b + szField, addr2b + szField⟩,
        st.fields, by rw [hf3], hm3, heq, fun g hg => Or.inl (hfields ▸ hg), ?_⟩
      exact Or.inr ⟨⟨addr2b, rfl, rfl, Or.inl hpage2⟩, rfl⟩

/- ## Helpers for the memory-level claims -/

theorem guard_false_parts (st : ArenaSt) (s a : Nat)
    (h : (!arena_isvalid st || decide (s < 1) || decide (a > s) ||
      !alignment_isvalid a) = false) :
    0 < st.minimum_field_size ∧ 1 ≤ s ∧ a ≤ s ∧ ∃ i, a = 2 ^ i := by
  simp only [arena_isvalid, Bool.or_eq_false_iff, Bool.not_eq_true', Bool.not_eq_false',
    decide_eq_false_iff_not, decide_eq_true_eq] at h
  obtain ⟨⟨⟨h1, h2⟩, h3⟩, h4⟩ := h
  refine ⟨h1, by omega, by omega, (alignment_isvalid_iff a).mp ?_⟩
  simpa using h4

theorem max_align_pow (a i : Nat) (ha : a = 2 ^ i) :
    ∃ j, (if alignofFb > a then alignofFb else a) = 2 ^ j := by
  unfold alignofFb
  by_cases h : 8 > a
  · rw [if_pos h]
    exact ⟨3, by norm_num⟩
  · rw [if_neg h]
    exact ⟨i, ha⟩

theorem oracle_entry (oracle : List (Option Nat)) (addr : Nat)
    (h : oracle.headD none = some addr ∨ (oracle.drop 1).headD none = some addr) :
    some addr ∈ oracle := by
  rcases h with h | h
  · cases oracle with
    | nil => simp at h
    | cons o rest =>
      simp only [List.headD_cons] at h
      rw [h]
      exact List.mem_cons_self _ _
  · cases oracle with
    | nil => simp at h
    | cons o rest =>
      cases rest with
      | nil => simp at h
      | cons o1 rest1 =>
        simp only [List.drop_succ_cons, List.drop_zero, List.headD_cons] at h
        rw [h]
        exact List.mem_cons_of_mem _ (List.mem_cons_self _ _)

theorem mem_allBlocks_of_visited (blocks : List (List Nat)) (idxs : List Nat) (b : Nat)
    (hb : b ∈ idxs.flatMap (fun j => blocks.getD j [])) : b ∈ blocks.flatten := by
  simp only [List.mem_flatMap] at hb
  obtain ⟨j, hj, hbj⟩ := hb
  rw [List.getD_eq_getElem?_getD] at hbj
  cases hx : blocks[j]? with
  | none =>
    rw [hx] at hbj
    simp at hbj
  | some l =>
    rw [hx] at hbj
    simp only [Option.getD_some] at hbj
    exact List.mem_flatten.mpr ⟨l, List.getElem?_mem hx, hbj⟩

/-- the memory written by arena_alloc_finish: the size field bytes at the
old top, the zero gap up to the aligned payload, and everything else
untouched. -/
theorem wrapSub_eq_sub (x y : Nat) (h1 : y ≤ x) (h2 : x < 2 ^ 64) :
    wrapSub x y = x - y := by
  unfold wrapSub
  omega

theorem wrapSub_lt (x y : Nat) : wrapSub x y < 2 ^ 64 := by
  unfold wrapSub
  omega

theorem arena_alloc_finish_mem (stx : ArenaSt) (f : Field) (sz A : Nat) (st2 : ArenaSt)
    (iA : ∃ i, A = 2 ^ i)
    (hst : (arena_alloc_finish stx f sz A).state = some st2) :
    (∀ i, i < 8 → st2.mem (f.top + i) =
      byte (wrapSub (align_up (align_up (f.top + szSize) A + sz) alignofFb % 2 ^ 64)
        (f.top + szSize)) i) ∧
    (∀ q, f.top + szSize ≤ q → q < align_up (f.top + szSize) A → st2.mem q = 0) ∧
    (∀ q, q < f.top ∨ align_up (f.top + szSize) A ≤ q → st2.mem q = stx.mem q) := by
  have h8 : szSize = 8 := rfl
  rw [arena_alloc_finish_eq] at hst
  simp only [Option.some.injEq] at hst
  subst hst
  obtain ⟨jA, hA⟩ := iA
  obtain ⟨hge, hlt, hmod⟩ := align_up_spec (f.top + szSize) jA
  rw [← hA] at hge hlt hmod
  refine ⟨?_, ?_, ?_⟩
  · intro i hi
    dsimp only
    rw [store64_inside _ _ _ _ (by omega) (by omega)]
    have hix : f.top + i - f.top = i := by omega
    rw [hix]
  · intro q h1 h2
    dsimp only
    rw [store64_outside _ _ _ _ (Or.inr (by omega))]
    rw [memset0_inside _ _ _ _ (by omega) (by omega)]
  · intro q hq
    dsimp only
    rw [store64_outside _ _ _ _ (by omega)]
    rw [memset0_outside _ _ _ _ (by omega)]

/- ## Claim C3: the zero-fill gap -/

/-- Claim C3 counterexample: on a fresh field, alloc(16, 8) returns a
payload exactly sizeof(Free_block.size) bytes past the header, so there is
no byte strictly between the size field and the payload (the gap is empty),
contradicting the claimed "at least one byte". -/
theorem arena_alloc_gap_cex :
    (arena_alloc stOneField 16 8 []).payload =
      some ((arena_alloc stOneField 16 8 []).hdr.getD 0 + szSize) := by decide

/-- Claim C3 as amended: on both the free-list-reuse path and the bump
path, every byte strictly between the size field of the header and the
returned payload pointer is zero in the post-allocation memory; the gap can
be empty (exactly when the payload is already aligned at header + szSize),
so no minimum of one byte holds. -/
theorem arena_alloc_zero_gap (st : ArenaSt) (s a : Nat) (oracle : List (Option Nat))
    (p : Nat) (st2 : ArenaSt) (hd : Nat)
    (hp : (arena_alloc st s a oracle).payload = some p)
    (hst : (arena_alloc st s a oracle).state = some st2)
    (hh : (arena_alloc st s a oracle).hdr = some hd) :
    ∀ q, hd + szSize ≤ q → q < p → st2.mem q = 0 := by
  by_cases hguard : (!arena_isvalid st || decide (s < 1) || decide (a > s) ||
      !alignment_isvalid a) = true
  · rw [arena_alloc_eq, if_pos hguard] at hp
    simp at hp
  · rw [Bool.not_eq_true] at hguard
    obtain ⟨hmfs, hs1, has, ia, hia⟩ := guard_false_parts st s a hguard
    cases hsearch : fb_search st s a with
    | some pr =>
      obtain ⟨block, st1⟩ := pr
      rw [arena_alloc_eq, hguard, if_neg Bool.false_ne_true, hsearch] at hp hst hh
      dsimp only at hp hst hh
      simp only [Option.some.injEq] at hp hst hh
      intro q hq1 hq2
      rw [← hst]
      dsimp only
      subst hia
      obtain ⟨hge, -, -⟩ := align_up_spec (block + szSize) ia
      rw [memset0_inside _ _ _ _ (by omega) (by omega)]
    | none =>
      have hsome : (arena_alloc st s a oracle).state.isSome = true := by
        rw [hst]
        rfl
      obtain ⟨stx, f, rest, hfx, hmx, heq, -, -⟩ :=
        arena_alloc_slow_shape st s a oracle hguard hsearch hsome
      rw [heq] at hp hst hh
      rw [arena_alloc_finish_eq] at hp hh
      simp only [Option.some.injEq] at hp hh
      obtain ⟨-, hzero, -⟩ := arena_alloc_finish_mem stx f _ _ st2
        (max_align_pow a ia hia) hst
      intro q hq1 hq2
      rw [← hh] at hq1
      rw [← hp] at hq2
      exact hzero q hq1 hq2

/-- witness for the amended claim C3: alloc(64, 64) on a fresh field leaves
a nonempty all-zero gap; the byte just past the size field reads zero. -/
theorem arena_alloc_zero_gap_witness :
    (arena_alloc stOneField 64 64 []).payload = some 4160 ∧
      (arena_alloc stOneField 64 64 []).hdr = some 4120 ∧
      4120 + szSize ≤ 4130 ∧ 4130 < 4160 ∧
      ((arena_alloc stOneField 64 64 []).state.getD arena_new).mem 4130 = 0 :=
  ⟨by decide, by decide, by decide, by decide,
    arena_alloc_zero_gap stOneField 64 64 [] 4160
      ((arena_alloc stOneField 64 64 []).state.getD arena_new) 4120
      (by decide) rfl (by decide) 4130 (by decide) (by decide)⟩

/- ## Claim C2: header recovery after allocation -/

/-- Claim C2: for a payload p returned by arena_alloc on a valid arena (its
header bytes and zero gap intact, as immediately after the call),
fb_start_address - decrementing one byte at a time until a nonzero byte and
rounding down to alignof(Free_block) - returns exactly the address at which
the allocation recorded its size: the ghost hdr output of the model, which
is the reused block address on the free-list path (second conjunct) and
field->top at bump time on the slow path (assigned at the memset line). -/
theorem arena_alloc_header_recovery (st : ArenaSt) (s a : Nat)
    (oracle : List (Option Nat)) (p : Nat) (st2 : ArenaSt) (hd : Nat)
    (hbytes : ∀ q, st.mem q < 256)
    (hblocks : ∀ b ∈ allBlocks st, b % 8 = 0 ∧ 0 < load64 st.mem b ∧ b < 2 ^ 40)
    (hsep : blocks_separated (allBlocks st))
    (hlen : st.blocks.length = NUM_BUCKETS)
    (hfw : ∀ f ∈ st.fields, f.top % 8 = 0 ∧ f.top < 2 ^ 40)
    (horacle : ∀ o ∈ oracle, o.getD 0 % 8 = 0 ∧ o.getD 0 < 2 ^ 40)
    (hs32 : s < 2 ^ 32)
    (hp : (arena_alloc st s a oracle).payload = some p)
    (hst : (arena_alloc st s a oracle).state = some st2)
    (hh : (arena_alloc st s a oracle).hdr = some hd) :
    fb_start_address st2.mem p = hd ∧
      ∀ w stx, fb_search st s a = some (w, stx) → hd = w := by
  have h8' : szSize = 8 := rfl
  have hfb' : alignofFb = 8 := rfl
  by_cases hguard : (!arena_isvalid st || decide (s < 1) || decide (a > s) ||
      !alignment_isvalid a) = true
  · rw [arena_alloc_eq, if_pos hguard] at hp
    simp at hp
  · rw [Bool.not_eq_true] at hguard
    obtain ⟨hmfs, hs1, has, ia, hia⟩ := guard_false_parts st s a hguard
    cases hsearch : fb_search st s a with
    | some pr =>
      obtain ⟨w, st1⟩ := pr
      rw [arena_alloc_eq, hguard, if_neg Bool.false_ne_true, hsearch] at hp hst hh
      dsimp only at hp hst hh
      simp only [Option.some.injEq] at hp hst hh
      refine ⟨?_, ?_⟩
      swap
      · intro w2 stx2 hs2
        simp only [Option.some.injEq, Prod.mk.injEq] at hs2
        rw [← hh]
        exact hs2.1
      unfold fb_search at hsearch
      cases hgo : fb_search_go st.mem s a st.blocks
          (List.range' (size_class_index s) (NUM_BUCKETS - size_class_index s)) with
      | none =>
        rw [hgo] at hsearch
        dsimp only at hsearch
        simp at hsearch
      | some r =>
        obtain ⟨w0, blocks2, m2⟩ := r
        rw [hgo] at hsearch
        dsimp only at hsearch
        simp only [Option.some.injEq, Prod.mk.injEq] at hsearch
        obtain ⟨hw0, hst1⟩ := hsearch
        subst hw0
        subst hst1
        have hnd : (List.range' (size_class_index s)
            (NUM_BUCKETS - size_class_index s)).Nodup := List.nodup_range' _ _
        have hbound : ∀ j ∈ List.range' (size_class_index s)
            (NUM_BUCKETS - size_class_index s), j < st.blocks.length := by
          intro j hj
          have hj2 := (List.mem_range'_1).mp hj
          have hle := size_class_index_le s
          unfold NUM_BUCKETS at *
          omega
        obtain ⟨hwin, ⟨pre, post, hvis, -, -⟩, -, hframe⟩ :=
          fb_search_go_some st.mem s a st.blocks _ w0 blocks2 m2 hnd hbound hgo
        have hwmem : w0 ∈ allBlocks st :=
          mem_allBlocks_of_visited st.blocks _ w0 (by rw [hvis]; simp)
        obtain ⟨hw8, hwpos, hwlt⟩ := hblocks w0 hwmem
        have hm2b : ∀ i, i < 8 → m2 (w0 + i) = st.mem (w0 + i) := by
          intro i hi
          apply hframe
          intro b hb
          by_cases hbw : b = w0
          · subst hbw
            left
            omega
          · have hbmem : b ∈ allBlocks st := mem_allBlocks_of_visited st.blocks _ b hb
            rcases Nat.lt_or_ge b w0 with hlt | hge
            · have hs16 := hsep b hbmem w0 hwmem hlt
              right
              unfold szFreeBlock at hs16 ⊢
              omega
            · have hlt2 : w0 < b := by omega
              have hs16 := hsep w0 hwmem b hbmem hlt2
              left
              unfold szFreeBlock at hs16
              omega
        subst hia
        obtain ⟨hge, hlt, -⟩ := align_up_spec (w0 + szSize) ia
        have hp2 : p = align_up (w0 + szSize) (2 ^ ia) := by rw [← hp]
        have hst2mem : st2.mem = memset0 m2 (w0 + szSize)
            (align_up (w0 + szSize) (2 ^ ia) - (w0 + szSize)) := by
          rw [← hst]
        rw [← hh]
        rw [hp2, hst2mem]
        apply fb_start_address_eq _ _ _ (load64 st.mem w0)
          (Nat.dvd_of_mod_eq_zero hw8) hwpos (load64_lt st.mem w0 hbytes)
        · omega
        · intro i hi
          rw [memset0_outside _ _ _ _ (by omega)]
          rw [hm2b i hi]
          exact (byte_load64 st.mem w0 hbytes i hi).symm
        · omega
        · intro q hq1 hq2
          rw [memset0_inside _ _ _ _ (by omega) (by omega)]
    | none =>
      have hsome : (arena_alloc st s a oracle).state.isSome = true := by
        rw [hst]
        rfl
      refine ⟨?_, fun w2 stx2 hs2 => Option.noConfusion hs2⟩
      obtain ⟨stx, f, rest, hfx, hmx, heq, hrest, hpick⟩ :=
        arena_alloc_slow_shape st s a oracle hguard hsearch hsome
      rw [heq] at hp hst hh
      rw [arena_alloc_finish_eq] at hp hh
      simp only [Option.some.injEq] at hp hh
      obtain ⟨hbts, hzero, -⟩ := arena_alloc_finish_mem stx f _ _ st2
        (max_align_pow a ia hia) hst
      have hftop : f.top % 8 = 0 ∧ f.top < 2 ^ 41 := by
        rcases hpick with ⟨hstx, hhead, -⟩ | ⟨⟨addr, hbase, htop, hor⟩, -⟩
        · have hfmem : f ∈ st.fields := by
            cases hflds : st.fields with
            | nil => rw [hflds] at hhead; simp at hhead
            | cons f1 r1 =>
              rw [hflds] at hhead
              simp only [List.head?_cons, Option.some.injEq] at hhead
              rw [← hhead]
              exact List.mem_cons_self _ _
          obtain ⟨hm, hb⟩ := hfw f hfmem
          exact ⟨hm, by omega⟩
        · obtain ⟨hmod, hbnd⟩ := horacle (some addr) (oracle_entry oracle addr hor)
          have hmod2 : addr % 8 = 0 := by simpa using hmod
          have hbnd2 : addr < 2 ^ 40 := by simpa using hbnd
          unfold szField at hbase
          omega
      obtain ⟨jA, hjA⟩ := max_align_pow a ia hia
      have hAle : (if alignofFb > a then alignofFb else a) ≤ s + 8 := by
        rw [hfb']
        split <;> omega
      have hszle : (if s < szFreeBlock - szSize then szFreeBlock - szSize else s) ≤ s + 8 := by
        unfold szFreeBlock szSize
        split <;> omega
      have hsz1 : 1 ≤ (if s < szFreeBlock - szSize then szFreeBlock - szSize else s) := by
        unfold szFreeBlock szSize
        split <;> omega
      rw [hjA] at hbts hzero
      obtain ⟨hge1, hlt1, -⟩ := align_up_spec (f.top + szSize) jA
      obtain ⟨hge2, hlt2, hmod2⟩ := align_up_spec
        (align_up (f.top + szSize) (2 ^ jA) +
          (if s < szFreeBlock - szSize then szFreeBlock - szSize else s)) 3
      have h23 : (2:Nat) ^ 3 = 8 := by norm_num
      rw [h23] at hge2 hlt2 hmod2
      have hAbound : (2:Nat) ^ jA ≤ s + 8 := by rw [← hjA]; exact hAle
      have hbr2 : align_up (align_up (f.top + szSize) (2 ^ jA) +
            (if s < szFreeBlock - szSize then szFreeBlock - szSize else s)) alignofFb =
          align_up (align_up (f.top + szSize) (2 ^ jA) +
            (if s < szFreeBlock - szSize then szFreeBlock - szSize else s)) 8 := by
        rw [hfb']
      have hNTlt : align_up (align_up (f.top + szSize) (2 ^ jA) +
            (if s < szFreeBlock - szSize then szFreeBlock - szSize else s)) alignofFb <
          2 ^ 64 := by
        rw [hbr2]
        omega
      have hNTid : align_up (align_up (f.top + szSize) (2 ^ jA) +
            (if s < szFreeBlock - szSize then szFreeBlock - szSize else s)) alignofFb %
            2 ^ 64 =
          align_up (align_up (f.top + szSize) (2 ^ jA) +
            (if s < szFreeBlock - szSize then szFreeBlock - szSize else s)) alignofFb :=
        Nat.mod_eq_of_lt hNTlt
      have hwsub : wrapSub (align_up (align_up (f.top + szSize) (2 ^ jA) +
            (if s < szFreeBlock - szSize then szFreeBlock - szSize else s)) alignofFb)
          (f.top + szSize) =
          align_up (align_up (f.top + szSize) (2 ^ jA) +
            (if s < szFreeBlock - szSize then szFreeBlock - szSize else s)) alignofFb -
          (f.top + szSize) :=
        wrapSub_eq_sub _ _ (by rw [hbr2]; omega) hNTlt
      rw [hNTid, hwsub] at hbts
      rw [← hh]
      have hp3 : p = align_up (f.top + szSize) (2 ^ jA) := by rw [← hp, hjA]
      rw [hp3]
      apply fb_start_address_eq _ _ _
        (align_up (align_up (f.top + szSize) (2 ^ jA) +
            (if s < szFreeBlock - szSize then szFreeBlock - szSize else s)) alignofFb -
          (f.top + szSize))
        (Nat.dvd_of_mod_eq_zero hftop.1)
      · rw [hfb']
        omega
      · rw [hfb']
        omega
      · omega
      · intro i hi
        exact hbts i hi
      · omega
      · intro q hq1 hq2
        exact hzero q hq1 hq2

/-- Witness for C2: on the one-field arena, alloc(16, 8) returns payload
4128 with header at 4120 = field top; scanning back from the payload over
the zero gap recovers 4120, and the free-list clause is vacuous since all
buckets are empty. -/
theorem arena_alloc_header_recovery_witness :
    fb_start_address ((arena_alloc stOneField 16 8 []).state.getD stOneField).mem 4128 = 4120 ∧
      ∀ w stx, fb_search stOneField 16 8 = some (w, stx) → 4120 = w :=
  arena_alloc_header_recovery stOneField 16 8 [] 4128
    ((arena_alloc stOneField 16 8 []).state.getD stOneField) 4120
    (by intro q; show 0 < 256; decide)
    (by intro b hb; exact absurd hb (List.not_mem_nil b))
    (by intro b1 hb1; exact absurd hb1 (List.not_mem_nil b1))
    (by decide)
    (by intro f hf; simp only [stOneField, List.mem_singleton] at hf; subst hf; decide)
    (by intro o ho; exact absurd ho (List.not_mem_nil o))
    (by decide)
    (by decide)
    rfl
    (by decide)

/-- Claim C6: whenever arena_alloc must push a new field - because the
arena has no head field, or because the head field lacks room for the
aligned request under the boundary check the code performs (comparing the
new top computed in wrapping ulen_ty arithmetic against base + size) - and
the page source refuses (mmap failure), arena_alloc destroys the arena:
every field is released (the delete log is the whole chain), the arena
record is freed (no surviving state) and NULL is returned. -/
theorem arena_alloc_push_failure_destroys (st : ArenaSt) (s a : Nat)
    (oracle : List (Option Nat))
    (hguard : (!arena_isvalid st || decide (s < 1) || decide (a > s) ||
      !alignment_isvalid a) = false)
    (hsearch : fb_search st s a = none)
    (hpage : oracle.headD none = none)
    (hneed : ∀ f rest, st.fields = f :: rest →
      f.base + f.size <
        align_up (align_up (f.top + szSize) (if alignofFb > a then alignofFb else a) +
          (if s < szFreeBlock - szSize then szFreeBlock - szSize else s)) alignofFb %
          2 ^ 64) :
    arena_alloc st s a oracle = ⟨none, none, arena_delete st, none⟩ := by
  rw [arena_alloc_eq, hguard, if_neg Bool.false_ne_true, hsearch]
  dsimp only
  cases hf : st.fields with
  | nil =>
    dsimp only
    rw [hpage]
    rfl
  | cons f rest =>
    dsimp only
    rw [arena_alloc_bump_eq, if_pos (hneed f rest hf), hpage]
    rfl

/-- Witness for C6: a fresh arena with minimum_field_size 4096 and no
fields, asked for 16 bytes at alignment 8 while the page source answers
nothing, is destroyed. -/
theorem arena_alloc_push_failure_destroys_witness :
    arena_alloc stEmpty4096 16 8 [] = ⟨none, none, arena_delete stEmpty4096, none⟩ :=
  arena_alloc_push_failure_destroys stEmpty4096 16 8 []
    (by decide) rfl rfl
    (by intro f rest h; exact List.noConfusion h)

/-- the default of getLastD on a cons cell is a member of the cell. -/
theorem getLastD_mem_cons_self (l : List Field) (a : Field) : l.getLastD a ∈ a :: l := by
  induction l generalizing a with
  | nil => exact List.mem_cons_self _ _
  | cons b bs ih =>
    rw [List.getLastD_cons]
    exact List.mem_cons_of_mem _ (ih b)

/-- fb_search only touches the free lists and the memory: the field chain
and the configured minimum size survive. -/
theorem fb_search_frame (st : ArenaSt) (s a w : Nat) (st1 : ArenaSt)
    (h : fb_search st s a = some (w, st1)) :
    st1.fields = st.fields ∧ st1.minimum_field_size = st.minimum_field_size := by
  unfold fb_search at h
  cases hgo : fb_search_go st.mem s a st.blocks
      (List.range' (size_class_index s) (NUM_BUCKETS - size_class_index s)) with
  | none =>
    rw [hgo] at h
    exact absurd h (by simp)
  | some r =>
    obtain ⟨w0, b2, m2⟩ := r
    rw [hgo] at h
    dsimp only at h
    simp only [Option.some.injEq, Prod.mk.injEq] at h
    rw [← h.2]
    exact ⟨rfl, rfl⟩

/-- a field freshly mapped from an 8-aligned page satisfies the field
well-formedness conditions at birth (top = base). -/
theorem fresh_field_wf_start (oracle : List (Option Nat)) (g : Field)
    (hok : oracle_ok oracle) (hfresh : fresh_from oracle g) : field_wf g := by
  obtain ⟨addr, hbase, htop, hor⟩ := hfresh
  have hmem := hok (some addr) (oracle_entry oracle addr hor)
  have ha8 : addr % 8 = 0 := by simpa using hmem.1
  have h24 : szField = 24 := rfl
  refine ⟨by rw [hbase]; omega, by rw [htop, hbase]; omega,
    le_of_eq htop.symm, by rw [htop]; omega⟩

/-- the arithmetic heart of the no-recheck push: when the base and the
capacity are multiples of 8 and the capacity covers the alignment plus the
slot size, the recomputed top stays within the fresh field. -/
theorem new_top_le_of_cap (base A sz cap jA : Nat) (hA : A = 2 ^ jA) (hA8 : 8 ≤ A)
    (hb8 : base % 8 = 0) (hcap8 : cap % 8 = 0) (hAsz : A + sz ≤ cap) :
    align_up (align_up (base + szSize) A + sz) alignofFb ≤ base + cap := by
  have h8 : szSize = 8 := rfl
  have hfb : alignofFb = 8 := rfl
  have hjA3 : 3 ≤ jA := by
    have h23 : (2 : Nat) ^ 3 ≤ 2 ^ jA := by
      rw [← hA]
      omega
    exact (Nat.pow_le_pow_iff_right (by omega)).mp h23
  have hA8d : A % 8 = 0 := by
    have hsplit : (2 : Nat) ^ jA = 8 * 2 ^ (jA - 3) := by
      rw [show (8 : Nat) = 2 ^ 3 by norm_num, ← pow_add]
      congr 1
      omega
    rw [hA, hsplit]
    omega
  obtain ⟨hge1, hlt1, hmod1⟩ := align_up_spec (base + szSize) jA
  rw [← hA] at hge1 hlt1 hmod1
  have haligned8 : align_up (base + szSize) A % 8 = 0 := by
    have hdvd : (8 : Nat) ∣ align_up (base + szSize) A :=
      dvd_trans (Nat.dvd_of_mod_eq_zero hA8d) (Nat.dvd_of_mod_eq_zero hmod1)
    obtain ⟨k, hk⟩ := hdvd
    rw [hk]
    omega
  obtain ⟨hge2, hlt2, hmod2⟩ := align_up_spec (align_up (base + szSize) A + sz) 3
  have h23 : (2 : Nat) ^ 3 = 8 := by norm_num
  rw [h23] at hge2 hlt2 hmod2
  rw [hfb]
  omega

/-- the reachability invariant behind the amended C5: along valid
operation sequences the configured minimum size stays positive, 8-aligned
and below 2 ^ 62, and every field of the chain is well formed with
base + size below 2 ^ 63, so no 64-bit computation on it can wrap. -/
theorem reach_inv (st : ArenaSt) (h : Reach st) :
    0 < st.minimum_field_size ∧ st.minimum_field_size % 8 = 0 ∧
      st.minimum_field_size < 2 ^ 62 ∧
      ∀ f ∈ st.fields, field_wf f ∧ f.base + f.size < 2 ^ 63 := by
  induction h with
  | new =>
    refine ⟨by decide, by decide, by decide, ?_⟩
    intro f hf
    exact absurd hf (List.not_mem_nil f)
  | set_min st m hr hm hm8 hm62 ih =>
    exact ⟨hm, hm8, hm62, fun f hf => ih.2.2.2 f hf⟩
  | free st ptr hr ih =>
    unfold arena_free
    by_cases hc : (!arena_isvalid st || ptr == 0) = true
    · rw [if_pos hc]
      exact ih
    · rw [if_neg hc]
      exact ⟨ih.1, ih.2.1, ih.2.2.1, fun f hf => ih.2.2.2 f hf⟩
  | reset st hr ih =>
    unfold arena_reset
    by_cases hv : (!arena_isvalid st) = true
    · rw [if_pos hv]
      exact ih
    · rw [if_neg hv]
      cases hflds : st.fields with
      | nil =>
        dsimp only
        exact ⟨ih.1, ih.2.1, ih.2.2.1, fun g hg => absurd hg (List.not_mem_nil g)⟩
      | cons f rest =>
        dsimp only
        refine ⟨ih.1, ih.2.1, ih.2.2.1, ?_⟩
        intro g hg
        rw [List.mem_singleton] at hg
        subst hg
        have hr1 : (reset_loop f rest).1 ∈ st.fields := by
          rw [reset_loop_eq, hflds]
          exact getLastD_mem_cons_self rest f
        obtain ⟨⟨hb8, ht8, hbt, hts⟩, hbound⟩ := ih.2.2.2 _ hr1
        exact ⟨⟨hb8, hb8, le_refl _, Nat.le_add_right _ _⟩, hbound⟩
  | alloc st s a oracle st2 hr hok hs32 hst ih =>
    by_cases hguard : (!arena_isvalid st || decide (s < 1) || decide (a > s) ||
        !alignment_isvalid a) = true
    · rw [arena_alloc_eq, if_pos hguard] at hst
      dsimp only at hst
      simp only [Option.some.injEq] at hst
      subst hst
      exact ih
    · rw [Bool.not_eq_true] at hguard
      obtain ⟨hmfs, hs1, has, ia, hia⟩ := guard_false_parts st s a hguard
      cases hsearch : fb_search st s a with
      | some pr =>
        obtain ⟨w, st1⟩ := pr
        rw [arena_alloc_eq, hguard, if_neg Bool.false_ne_true, hsearch] at hst
        dsimp only at hst
        simp only [Option.some.injEq] at hst
        obtain ⟨hf1, hm1⟩ := fb_search_frame st s a w st1 hsearch
        subst hst
        refine ⟨?_, ?_, ?_, ?_⟩
        · show 0 < st1.minimum_field_size
          rw [hm1]
          exact ih.1
        · show st1.minimum_field_size % 8 = 0
          rw [hm1]
          exact ih.2.1
        · show st1.minimum_field_size < 2 ^ 62
          rw [hm1]
          exact ih.2.2.1
        · intro g hg
          have hg2 : g ∈ st1.fields := hg
          rw [hf1] at hg2
          exact ih.2.2.2 g hg2
      | none =>
        have hsome : (arena_alloc st s a oracle).state.isSome = true := by
          rw [hst]
          rfl
        obtain ⟨stx, f, rest, hfx, hmx, heq, hrest, hpick⟩ :=
          arena_alloc_slow_shape st s a oracle hguard hsearch hsome
        rw [heq, arena_alloc_finish_eq] at hst
        dsimp only at hst
        simp only [Option.some.injEq] at hst
        rw [hfx] at hst
        dsimp only at hst
        subst hst
        set A := if alignofFb > a then alignofFb else a with hA
        set sz := if s < szFreeBlock - szSize then szFreeBlock - szSize else s with hsz
        have h8 : szSize = 8 := rfl
        have hfbv : alignofFb = 8 := rfl
        have hA8 : 8 ≤ A := by
          rw [hA, hfbv]
          split <;> omega
        have hsz8 : 8 ≤ sz ∧ s ≤ sz ∧ sz ≤ s + 8 := by
          rw [hsz]
          unfold szFreeBlock szSize
          split <;> omega
        have hAle : A ≤ sz := by
          rw [hA, hfbv]
          split <;> omega
        obtain ⟨jA, hjA⟩ := max_align_pow a ia hia
        have hAsz : A + sz ≤ grow st.minimum_field_size sz := by
          have hgrow := grow_two_mul st.minimum_field_size sz ih.1
          omega
        have hcap8 : grow st.minimum_field_size sz % 8 = 0 := by
          obtain ⟨k, hk⟩ := grow_pow_form st.minimum_field_size sz
          obtain ⟨q, hq⟩ := Nat.dvd_of_mod_eq_zero ih.2.1
          rw [hk, hq, Nat.mul_assoc]
          exact Nat.mul_mod_right 8 _
        have hnt8 : align_up (align_up (f.top + szSize) A + sz) alignofFb % 8 = 0 := by
          have := (align_up_spec (align_up (f.top + szSize) A + sz) 3).2.2
          rw [show (2 : Nat) ^ 3 = 8 by norm_num] at this
          rw [hfbv]
          exact this
        obtain ⟨hge2, hlt2, -⟩ := align_up_spec (align_up (f.top + szSize) A + sz) 3
        rw [show (2 : Nat) ^ 3 = 8 by norm_num] at hge2 hlt2
        obtain ⟨hge1, hlt1, -⟩ := align_up_spec (f.top + szSize) jA
        rw [← hjA, ← hA] at hge1 hlt1
        have hbrv : align_up (align_up (f.top + szSize) A + sz) alignofFb =
            align_up (align_up (f.top + szSize) A + sz) 8 := by
          rw [hfbv]
        refine ⟨?_, ?_, ?_, ?_⟩
        · show 0 < stx.minimum_field_size
          rw [hmx]
          exact ih.1
        · show stx.minimum_field_size % 8 = 0
          rw [hmx]
          exact ih.2.1
        · show stx.minimum_field_size < 2 ^ 62
          rw [hmx]
          exact ih.2.2.1
        · intro g hg
          rcases List.mem_cons.mp hg with hg2 | hg2
          · subst hg2
            rcases hpick with ⟨hstx, hhead, hfit⟩ | ⟨hfresh, hsize⟩
            · have hfmem : f ∈ st.fields := by
                cases hfl : st.fields with
                | nil =>
                  rw [hfl] at hhead
                  exact absurd hhead (by simp)
                | cons f1 r1 =>
                  rw [hfl] at hhead
                  simp only [List.head?_cons, Option.some.injEq] at hhead
                  rw [← hhead]
                  exact List.mem_cons_self _ _
              obtain ⟨⟨hb8, ht8, hbt, hts⟩, hfs⟩ := ih.2.2.2 f hfmem
              have hNTlt : align_up (align_up (f.top + szSize) A + sz) alignofFb <
                  2 ^ 64 := by
                rw [hbrv]
                omega
              have hid : align_up (align_up (f.top + szSize) A + sz) alignofFb %
                  2 ^ 64 =
                  align_up (align_up (f.top + szSize) A + sz) alignofFb :=
                Nat.mod_eq_of_lt hNTlt
              refine ⟨⟨hb8, ?_, ?_, ?_⟩, hfs⟩
              · show align_up (align_up (f.top + szSize) A + sz) alignofFb % 2 ^ 64 %
                  8 = 0
                rw [hid]
                exact hnt8
              · show f.base ≤
                  align_up (align_up (f.top + szSize) A + sz) alignofFb % 2 ^ 64
                rw [hid, hbrv]
                omega
              · exact hfit
            · obtain ⟨addr, hbase, htop, hor⟩ := hfresh
              have hmemo := hok (some addr) (oracle_entry oracle addr hor)
              have ha8 : addr % 8 = 0 := by simpa using hmemo.1
              have ha40 : addr < 2 ^ 40 := by simpa using hmemo.2
              have h24 : szField = 24 := rfl
              have hb8 : f.base % 8 = 0 := by
                rw [hbase]
                omega
              have hNTlt : align_up (align_up (f.top + szSize) A + sz) alignofFb <
                  2 ^ 64 := by
                rw [hbrv]
                have hft : f.top = addr + szField := by rw [htop, hbase]
                omega
              have hid : align_up (align_up (f.top + szSize) A + sz) alignofFb %
                  2 ^ 64 =
                  align_up (align_up (f.top + szSize) A + sz) alignofFb :=
                Nat.mod_eq_of_lt hNTlt
              have hbound : f.base + f.size < 2 ^ 63 := by
                rw [hbase, hsize]
                rcases grow_upper st.minimum_field_size sz with hgu | hgu
                · have := ih.2.2.1
                  omega
                · omega
              refine ⟨⟨hb8, ?_, ?_, ?_⟩, hbound⟩
              · show align_up (align_up (f.top + szSize) A + sz) alignofFb % 2 ^ 64 %
                  8 = 0
                rw [hid]
                exact hnt8
              · show f.base ≤
                  align_up (align_up (f.top + szSize) A + sz) alignofFb % 2 ^ 64
                rw [hid, hbrv]
                have hbt : f.base ≤ f.top := le_of_eq htop.symm
                omega
              · show align_up (align_up (f.top + szSize) A + sz) alignofFb % 2 ^ 64 ≤
                  f.base + f.size
                rw [hid, hsize, htop]
                exact new_top_le_of_cap f.base A sz _ jA hjA hA8 hb8 hcap8 hAsz
          · rcases hrest g hg2 with hgst | ⟨hgfresh, hgsize⟩
            · exact ih.2.2.2 g hgst
            · refine ⟨fresh_field_wf_start oracle g hok hgfresh, ?_⟩
              obtain ⟨addr2, hbase2, htop2, hor2⟩ := hgfresh
              have hmem2 := hok (some addr2) (oracle_entry oracle addr2 hor2)
              have ha40b : addr2 < 2 ^ 40 := by simpa using hmem2.2
              have h24 : szField = 24 := rfl
              rw [hbase2, hgsize]
              rcases grow_upper st.minimum_field_size sz with hgu | hgu
              · have := ih.2.2.1
                omega
              · have hszb : sz ≤ s + 8 := hsz8.2.2
                omega


/-- Counterexample to C5 as stated: the owner may configure any positive
minimum_field_size; with minimum_field_size = 18 a request of 9 bytes at
alignment 1 pushes a field of capacity 18 whose recomputed top, taken
without a second bounds check, exceeds base + size (top = base + 24 on a
field of size 18). -/
theorem arena_alloc_field_overflow_cex :
    ∃ f ∈ ((arena_alloc stEmpty18 9 1 [some 4096, some 8192]).state.getD stEmpty18).fields,
      f.base + f.size < f.top := by decide

/-- Claim C5 (amended): along every sequence of valid operations in which
minimum_field_size is kept positive, a multiple of 8 and below 2 ^ 62 (the
default 256 MiB qualifies), every request is below 2 ^ 32 and the page
source hands out 8-aligned addresses below 2 ^ 40, every field of the
arena satisfies base <= top <= base + size at every observable moment; in
particular the recomputed (64-bit) top of the unchecked second push stays
within the fresh field. -/
theorem reach_field_invariant (st : ArenaSt) (h : Reach st) :
    ∀ f ∈ st.fields, f.base ≤ f.top ∧ f.top ≤ f.base + f.size := fun f hf =>
  ⟨(((reach_inv st h).2.2.2 f hf).1).2.2.1, (((reach_inv st h).2.2.2 f hf).1).2.2.2⟩

/-- Witness for C5: in the state reached by new; set_min 4096; alloc(16, 8)
with one 8-aligned page, the single field (base 4120, top 4144, size 4096)
is within bounds. -/
theorem reach_field_invariant_witness :
    ({ size := 4096, base := 4120, top := 4144 } : Field).base ≤
        ({ size := 4096, base := 4120, top := 4144 } : Field).top ∧
      ({ size := 4096, base := 4120, top := 4144 } : Field).top ≤
        ({ size := 4096, base := 4120, top := 4144 } : Field).base +
          ({ size := 4096, base := 4120, top := 4144 } : Field).size :=
  reach_field_invariant _
    (Reach.alloc { arena_new with minimum_field_size := 4096 } 16 8 [some 4096] _
      (Reach.set_min arena_new 4096 Reach.new (by decide) (by decide) (by decide))
      (by intro o ho; simp only [List.mem_singleton] at ho; subst ho; decide)
      (by decide)
      rfl)
    { size := 4096, base := 4120, top := 4144 }
    (List.mem_cons_self _ _)

/-- every bucket of a freshly zeroed bucket array is empty. -/
theorem getD_replicate_empty (n i : Nat) :
    (List.replicate n ([] : List Nat)).getD i [] = [] := by
  rw [List.getD_eq_getElem?_getD, List.getElem?_replicate]
  split <;> rfl

/-- fb_search_go on an index list whose buckets are all empty except
bucket i, holding exactly one winning block: the block is found and its
bucket emptied, with no memory write. -/
theorem fb_search_go_single (m : Mem) (s a : Nat) (blocks : List (List Nat))
    (i b : Nat) (l : List Nat) (hmem : i ∈ l)
    (hempty : ∀ j ∈ l, j ≠ i → blocks.getD j [] = [])
    (hbucket : blocks.getD i [] = [b])
    (hwin : winCond m b s a = true) :
    fb_search_go m s a blocks l = some (b, blocks.set i [], m) := by
  induction l with
  | nil => exact absurd hmem (List.not_mem_nil i)
  | cons j rest ih =>
    by_cases hj : j = i
    · subst hj
      unfold fb_search_go
      rw [hbucket]
      unfold fb_unlink
      rw [if_pos hwin]
    · have hje : blocks.getD j [] = [] := hempty j (List.mem_cons_self _ _) hj
      unfold fb_search_go
      rw [hje]
      have hmem2 : i ∈ rest := by
        rcases List.mem_cons.mp hmem with h | h
        · exact absurd h.symm hj
        · exact h
      exact ih hmem2 (fun k hk hki => hempty k (List.mem_cons_of_mem _ hk) hki)

/-- Claim C9: on a valid arena whose free lists are all empty and whose
head field has room for the aligned request, the sequence
p = alloc(s, a); free(p); alloc(s, a) hands the second allocation the very
block freed by the first: both allocations record their size at the same
header address f.top (LIFO reuse within the size class). -/
theorem arena_alloc_free_alloc_lifo (st : ArenaSt) (s a ia : Nat) (f : Field)
    (rest : List Field)
    (hmfs : 0 < st.minimum_field_size)
    (hs1 : 1 ≤ s) (has : a ≤ s) (hia : a = 2 ^ ia) (hs32 : s < 2 ^ 32)
    (hblocks : st.blocks = List.replicate NUM_BUCKETS [])
    (hfields : st.fields = f :: rest)
    (htop8 : f.top % 8 = 0) (htop40 : f.top < 2 ^ 40)
    (hroom : align_up (align_up (f.top + szSize)
        (if alignofFb > a then alignofFb else a) +
        (if s < szFreeBlock - szSize then szFreeBlock - szSize else s)) alignofFb ≤
      f.base + f.size) :
    ∃ p1 st2,
      (arena_alloc st s a []).payload = some p1 ∧
      (arena_alloc st s a []).state = some st2 ∧
      (arena_alloc st s a []).hdr = some f.top ∧
      (arena_alloc (arena_free st2 p1) s a []).hdr = some f.top := by
  have h8 : szSize = 8 := rfl
  have hfbv : alignofFb = 8 := rfl
  have hnb : NUM_BUCKETS = 17 := rfl
  have hguard : (!arena_isvalid st || decide (s < 1) || decide (a > s) ||
      !alignment_isvalid a) = false :=
    guard_false st s a hmfs (by omega) has ⟨ia, hia⟩
  have hsearch : fb_search st s a = none := by
    apply fb_search_all_empty
    rw [hblocks]
    intro l hl
    exact List.eq_of_mem_replicate hl
  have halloc0 : arena_alloc st s a [] =
      arena_alloc_finish st f
        (if s < szFreeBlock - szSize then szFreeBlock - szSize else s)
        (if alignofFb > a then alignofFb else a) := by
    rw [arena_alloc_eq, hguard, if_neg Bool.false_ne_true, hsearch]
    dsimp only
    rw [hfields]
    dsimp only
    rw [arena_alloc_bump_eq, if_neg (by omega)]
  set A := if alignofFb > a then alignofFb else a with hA
  set sz := if s < szFreeBlock - szSize then szFreeBlock - szSize else s with hsz
  have halloc1 := halloc0
  rw [arena_alloc_finish_eq] at halloc1
  rw [hfields] at halloc1
  dsimp only at halloc1
  obtain ⟨jA, hjA⟩ := max_align_pow a ia hia
  rw [← hA] at hjA
  have hA8 : 8 ≤ A := by
    rw [hA, hfbv]
    split <;> omega
  have hAle : A ≤ s + 8 := by
    rw [hA, hfbv]
    split <;> omega
  have hsz8 : 8 ≤ sz ∧ s ≤ sz ∧ sz ≤ s + 8 := by
    rw [hsz]
    unfold szFreeBlock szSize
    split <;> omega
  obtain ⟨hge1, hlt1, hmod1⟩ := align_up_spec (f.top + szSize) jA
  rw [← hjA] at hge1 hlt1 hmod1
  set aligned := align_up (f.top + szSize) A with hal
  obtain ⟨hge2, hlt2, hmod2⟩ := align_up_spec (aligned + sz) 3
  rw [show (2 : Nat) ^ 3 = 8 by norm_num] at hge2 hlt2 hmod2
  set NT := align_up (aligned + sz) alignofFb with hNTd
  have hbr : NT = align_up (aligned + sz) 8 := by
    rw [hNTd, hfbv]
  have halignedlt : aligned < 2 ^ 64 := by omega
  have hNTlt : NT < 2 ^ 64 := by omega
  have hvlt : NT - (f.top + szSize) < 2 ^ 64 := by omega
  have hvpos : 0 < NT - (f.top + szSize) := by omega
  have hNTid : NT % 2 ^ 64 = NT := Nat.mod_eq_of_lt hNTlt
  have hwsub : wrapSub (NT % 2 ^ 64) (f.top + szSize) = NT - (f.top + szSize) := by
    rw [hNTid]
    exact wrapSub_eq_sub _ _ (by omega) hNTlt
  rw [hwsub, hNTid] at halloc1
  set ST2 : ArenaSt := { st with
      fields := ({ f with top := NT } :: rest)
      mem := (store64 (memset0 st.mem f.top (aligned - f.top)) f.top
        (NT - (f.top + szSize))) } with hST2
  have hfin : (arena_alloc_finish st f sz A).state = some ST2 := by
    rw [← halloc0, halloc1]
  obtain ⟨hbts, hzero, hframe⟩ := arena_alloc_finish_mem st f sz A ST2 ⟨jA, hjA⟩ hfin
  rw [← hal] at hbts hzero
  rw [← hNTd] at hbts
  rw [hwsub] at hbts
  have hrec : fb_start_address ST2.mem aligned = f.top := by
    apply fb_start_address_eq _ _ _ (NT - (f.top + szSize))
      (Nat.dvd_of_mod_eq_zero htop8) hvpos hvlt halignedlt
    · intro i hi
      exact hbts i hi
    · omega
    · intro q hq1 hq2
      exact hzero q (by omega) hq2
  have hvalid2 : arena_isvalid ST2 = true := by
    simp only [arena_isvalid, decide_eq_true_eq]
    exact hmfs
  have hfree : arena_free ST2 aligned = fb_insert ST2 f.top := by
    unfold arena_free
    have hane : (aligned == 0) = false := by
      rw [beq_eq_false_iff_ne]
      omega
    rw [hvalid2, hane]
    simp only [Bool.not_true, Bool.false_or]
    rw [if_neg Bool.false_ne_true, hrec]
  have hload : load64 ST2.mem f.top = NT - (f.top + szSize) := by
    show load64 (store64 (memset0 st.mem f.top (aligned - f.top)) f.top
      (NT - (f.top + szSize))) f.top = NT - (f.top + szSize)
    exact load64_store64 _ _ _ hvlt
  set I := size_class_index (NT - (f.top + szSize)) with hI
  have hIle : I ≤ 16 := by
    rw [hI]
    exact size_class_index_le _
  have hslot : ST2.blocks.getD I [] = [] := by
    show st.blocks.getD I [] = []
    rw [hblocks]
    exact getD_replicate_empty _ _
  set STF : ArenaSt := { ST2 with
      blocks := (ST2.blocks.set I [f.top])
      mem := (store64 ST2.mem (f.top + szSize) 0) } with hSTF
  have hins : fb_insert ST2 f.top = STF := by
    rw [hSTF]
    unfold fb_insert
    rw [hload, ← hI]
    dsimp only
    rw [hslot]
    rfl
  have hlenst : st.blocks.length = NUM_BUCKETS := by
    rw [hblocks]
    exact List.length_replicate _ _
  have hguardF : (!arena_isvalid STF || decide (s < 1) || decide (a > s) ||
      !alignment_isvalid a) = false :=
    guard_false STF s a hmfs (by omega) has ⟨ia, hia⟩
  have hloadF : load64 STF.mem f.top = NT - (f.top + szSize) := by
    have hcongr : ∀ i, i < 8 → STF.mem (f.top + i) = ST2.mem (f.top + i) := by
      intro i hi
      show store64 ST2.mem (f.top + szSize) 0 (f.top + i) = ST2.mem (f.top + i)
      exact store64_outside _ _ _ _ (Or.inl (by omega))
    exact (load64_congr _ _ _ hcongr).trans hload
  have haA : a ≤ A := by
    rw [hA, hfbv]
    split <;> omega
  have hiajA : ia ≤ jA := by
    have hle : (2 : Nat) ^ ia ≤ 2 ^ jA := by
      rw [← hia, ← hjA]
      exact haA
    exact (Nat.pow_le_pow_iff_right (by omega)).mp hle
  obtain ⟨hgea, hlta, -⟩ := align_up_spec (f.top + szSize) ia
  rw [← hia] at hgea hlta
  have hya : align_up (f.top + szSize) a ≤ aligned := by
    rw [hal, hia, hjA]
    exact align_up_mono_align _ _ _ hiajA
  have hwinF : winCond STF.mem f.top s a = true := by
    unfold winCond
    rw [hloadF]
    simp only [Bool.or_eq_true, Bool.and_eq_true, decide_eq_true_eq]
    right
    refine ⟨by omega, ?_⟩
    unfold wrapSub
    omega
  have hsciI : size_class_index s ≤ I := by
    rw [hI]
    exact size_class_index_mono (by omega)
  have hmemI : I ∈ List.range' (size_class_index s) (NUM_BUCKETS - size_class_index s) := by
    have h1 := size_class_index_le s
    exact List.mem_range'_1.mpr ⟨hsciI, by omega⟩
  have hemptyF : ∀ j ∈ List.range' (size_class_index s) (NUM_BUCKETS - size_class_index s),
      j ≠ I → STF.blocks.getD j [] = [] := by
    intro j hj hne
    show (st.blocks.set I [f.top]).getD j [] = []
    rw [getD_set_ne_bucket _ _ _ _ (Ne.symm hne), hblocks]
    exact getD_replicate_empty _ _
  have hbucketF : STF.blocks.getD I [] = [f.top] := by
    show (st.blocks.set I [f.top]).getD I [] = [f.top]
    exact getD_set_self_bucket _ _ _ (by rw [hlenst, hnb]; omega)
  have hgoF := fb_search_go_single STF.mem s a STF.blocks I f.top
    (List.range' (size_class_index s) (NUM_BUCKETS - size_class_index s))
    hmemI hemptyF hbucketF hwinF
  have hsF : fb_search STF s a =
      some (f.top, { STF with blocks := (STF.blocks.set I []) }) := by
    unfold fb_search
    rw [hgoF]
  refine ⟨aligned, ST2, ?_, ?_, ?_, ?_⟩
  · rw [halloc1]
  · rw [halloc1]
  · rw [halloc1]
  · rw [hfree, hins, arena_alloc_eq, hguardF, if_neg Bool.false_ne_true, hsF]

/-- Witness for C9: on the one-field arena, alloc(16, 8) records its size
at header 4120; freeing the returned payload and allocating 16 bytes at
alignment 8 again reuses that block, recording at 4120 once more. -/
theorem arena_alloc_free_alloc_lifo_witness :
    ∃ p1 st2,
      (arena_alloc stOneField 16 8 []).payload = some p1 ∧
      (arena_alloc stOneField 16 8 []).state = some st2 ∧
      (arena_alloc stOneField 16 8 []).hdr = some 4120 ∧
      (arena_alloc (arena_free st2 p1) 16 8 []).hdr = some 4120 :=
  arena_alloc_free_alloc_lifo stOneField 16 8 3
    { size := 4096, base := 4120, top := 4120 } []
    (by decide) (by decide) (by decide) (by decide) (by decide)
    rfl rfl (by decide) (by decide) (by decide)

end Arena
